import Mathlib

/-!
# Failover request router (`main.go`): model and verified properties

The program keeps two pools of upstream endpoints, a bounded exclusion cache
with timed removal, and relays each inbound request to the first endpoint that
answers with a status other than 429.

The embedding is sequential.  Everything the source obtains from outside
(the random source of `rand.Shuffle`, the answers of the endpoints, the process
environment, the passing of time) is an explicit argument; everything the
source does to the outside (outbound calls, the reply written to the caller,
Slack posts, the line printed on relay) is recorded in the state.

Time is a clock in nanoseconds.  A callback registered with `time.AfterFunc` runs
when the clock reaches its deadline; one request is handled without the clock
moving; requests do not interleave.
-/

namespace LoadBalancer

/-! ## Library types used by `main.go` -/

/-- Modelled from the spec: the LRU list of package `github.com/floatdrop/lru`,
on which the two-queue cache imported by `main.go` is built; the package is not
part of the source tree.  The program only ever stores the value `true` and only
tests a lookup against `nil`, so an entry is represented by its key.  `keys`
is ordered from most to least recently used and holds at most `size` keys. -/
structure LRU where
  size : Nat
  keys : List String
deriving DecidableEq, Repr

namespace LRU

/-- Number of entries. -/
def Len (l : LRU) : Nat := l.keys.length

/-- Lookup that does not touch the recency order. -/
def Peek (l : LRU) (key : String) : Bool := decide (key ∈ l.keys)

/-- Lookup; a hit moves the entry to the front. -/
def Get (l : LRU) (key : String) : Bool × LRU :=
  if key ∈ l.keys then (true, { l with keys := key :: l.keys.filter (fun k => k ≠ key) })
  else (false, l)

/-- Insert or refresh an entry; a new entry pushes out the oldest one when the
list is full. -/
def Set (l : LRU) (key : String) : LRU :=
  if key ∈ l.keys then { l with keys := key :: l.keys.filter (fun k => k ≠ key) }
  else { l with keys := (key :: l.keys).take l.size }

/-- Delete an entry; the flag tells whether it was there. -/
def Remove (l : LRU) (key : String) : Bool × LRU :=
  (decide (key ∈ l.keys), { l with keys := l.keys.filter (fun k => k ≠ key) })

/-- Delete the least recently used entry and return its key. -/
def RemoveOldest (l : LRU) : Option String × LRU :=
  (l.keys.getLast?, { l with keys := l.keys.dropLast })

end LRU

/-- Modelled from the spec: the bounded two-tier recency cache
`twoqueue.TwoQueue[string, bool]` of package `github.com/floatdrop/2q`, which
`main.go` imports and which is not part of the source tree.  New keys enter
`recent`; a key seen again moves to `frequent`; `recentEvict` remembers keys
pushed out of `recent`.  At most `size` keys are held in `recent` and `frequent`
together.  What the results below need of it: a lookup finds exactly the keys
held, an admission adds no key but the admitted one and keeps the others while
there is room, a removal deletes its key and no other, and no more than `size`
keys are held. -/
structure TwoQueue where
  size : Nat
  recentSize : Nat
  recent : LRU
  frequent : LRU
  recentEvict : LRU
deriving DecidableEq, Repr

namespace TwoQueue

/-- The constructor `twoqueue.New(size)`: a quarter of the capacity is the target
size of `recent`, half of it the number of remembered evictions. -/
def New (size : Nat) : TwoQueue :=
  { size := size
    recentSize := size / 4
    recent := ⟨size, []⟩
    frequent := ⟨size, []⟩
    recentEvict := ⟨size / 2, []⟩ }

/-- Make room for one new entry: nothing to do below capacity; otherwise the
oldest entry of `recent` is demoted to `recentEvict` when `recent` is over its
target, else the oldest entry of `frequent` is dropped. -/
def ensureSpace (c : TwoQueue) (recentEvict : Bool) : TwoQueue :=
  let recentLen := c.recent.Len
  let freqLen := c.frequent.Len
  if recentLen + freqLen < c.size then c
  else if 0 < recentLen ∧
      (c.recentSize < recentLen ∨ (recentLen = c.recentSize ∧ recentEvict = false)) then
    match c.recent.RemoveOldest with
    | (some k, r) => { c with recent := r, recentEvict := c.recentEvict.Set k }
    | (none, r) => { c with recent := r }
  else { c with frequent := c.frequent.RemoveOldest.2 }

/-- The lookup `cache.Get(key)`: the flag is `true` when the result is not `nil`.
A hit in `recent` promotes the key to `frequent`. -/
def Get (c : TwoQueue) (key : String) : Bool × TwoQueue :=
  match c.frequent.Get key with
  | (true, f) => (true, { c with frequent := f })
  | (false, _) =>
    if c.recent.Peek key then
      (true, { c with recent := (c.recent.Remove key).2, frequent := c.frequent.Set key })
    else (false, c)

/-- The admission `cache.Set(key, true)`. -/
def Set (c : TwoQueue) (key : String) : TwoQueue :=
  if c.frequent.Peek key then { c with frequent := c.frequent.Set key }
  else if c.recent.Peek key then
    { c with recent := (c.recent.Remove key).2, frequent := c.frequent.Set key }
  else if c.recentEvict.Peek key then
    let c := c.ensureSpace true
    { c with recentEvict := (c.recentEvict.Remove key).2, frequent := c.frequent.Set key }
  else
    let c := c.ensureSpace false
    { c with recent := c.recent.Set key }

/-- The removal `cache.Remove(key)`: the key is deleted from the first of
`frequent`, `recent`, `recentEvict` that holds it. -/
def Remove (c : TwoQueue) (key : String) : TwoQueue :=
  match c.frequent.Remove key with
  | (true, f) => { c with frequent := f }
  | (false, _) =>
    match c.recent.Remove key with
    | (true, r) => { c with recent := r }
    | (false, _) => { c with recentEvict := (c.recentEvict.Remove key).2 }

/-- Number of keys a lookup can find. -/
def Len (c : TwoQueue) : Nat := c.recent.Len + c.frequent.Len

end TwoQueue

/-! ## Shuffle -/

/-- The random source seen by `rand.Shuffle`: `rnd i` is the number drawn at the
step with upper index `i`; it is reduced into the range `0..i`. -/
abbrev Rand := Nat → Nat

/-- The closure passed to `rand.Shuffle`:
`shuffled[i], shuffled[j] = shuffled[j], shuffled[i]`. -/
def swap (shuffled : List String) (i j : Nat) : List String :=
  (shuffled.set i (shuffled.getD j "")).set j (shuffled.getD i "")

/-- The two slices alive during `shuffleURLs`: the caller's `urls` and the local
`shuffled`. -/
structure ShuffleMem where
  urls : List String
  shuffled : List String
deriving DecidableEq, Repr

/-- The loop of `rand.Shuffle`: for `i` from `n - 1` down to `1`, draw `j` in
`0..i` and call `swap i j`. -/
def randShuffleFrom (rnd : Rand) (swp : Nat → Nat → ShuffleMem → ShuffleMem) :
    Nat → ShuffleMem → ShuffleMem
  | 0, m => m
  | i + 1, m => randShuffleFrom rnd swp i (swp (i + 1) (rnd (i + 1) % (i + 2)) m)

/-- The call `rand.Shuffle(n, swap)`. -/
def randShuffle (rnd : Rand) (n : Nat) (swp : Nat → Nat → ShuffleMem → ShuffleMem)
    (m : ShuffleMem) : ShuffleMem :=
  randShuffleFrom rnd swp (n - 1) m

/-- The function `shuffleURLs`: copy `urls` into a fresh slice `shuffled`, shuffle
that slice in place, return it.  The result records both slices as they are when
the function returns. -/
def shuffleURLs (rnd : Rand) (urls : List String) : ShuffleMem :=
  randShuffle rnd urls.length
    (fun i j m => { m with shuffled := swap m.shuffled i j })
    { urls := urls, shuffled := urls }

/-! ## Endpoints, replies and program state -/

/-- What one call of `forwardRequest` yields: an error (`err != nil`), or a
response with its status code and its body, where `none` stands for a body that
`io.ReadAll` fails to read. -/
inductive Outcome where
  | transportError
  | response (status : Nat) (body : Option String)
deriving DecidableEq, Repr

/-- Behaviour of the endpoints: the outcome of a forward attempt to `url`, given
the list of the attempts made before it. -/
abbrev Network := List String → String → Outcome

/-- The constant `http.StatusTooManyRequests`. -/
def StatusTooManyRequests : Nat := 429

/-- The constant `http.StatusInternalServerError`. -/
def StatusInternalServerError : Nat := 500

/-- A complete response written to the caller through `http.ResponseWriter`. -/
structure Reply where
  status : Nat
  body : String
deriving DecidableEq, Repr

/-- The helper `http.Error(w, msg, code)`: status `code`, body `msg` and a newline. -/
def httpError (msg : String) (code : Nat) : Reply := ⟨code, msg ++ "\n"⟩

/-- The package-level variables set by `init` (and `port` by `main`). -/
structure Config where
  RPCs : List String
  FallbackRPC : List String
  port : String
  cacheTTL : Int
  slackURL : String
deriving DecidableEq, Repr

/-- Program state: the globals, the pending `time.AfterFunc` callbacks
(deadline and url), the clock, and the record of the effects on the outside:
outbound forward attempts, replies written to the caller, messages handed to
`sendNotificationToSlack`, and the lines printed on relay. -/
structure State where
  cfg : Config
  cache : TwoQueue
  timers : List (Int × String)
  now : Int
  forwarded : List String
  written : List Reply
  slack : List String
  printed : List (Nat × String)
deriving DecidableEq, Repr

/-- The test `cache.Get(url) != nil` as an observation of the state. -/
def excluded (s : State) (url : String) : Bool := (s.cache.Get url).1

/-- The function `addToCacheWithTTL`: store `url` and schedule its removal `ttl`
after the present moment. -/
def addToCacheWithTTL (url : String) (ttl : Int) (s : State) : State :=
  { s with cache := s.cache.Set url, timers := s.timers ++ [(s.now + ttl, url)] }

/-- Passing of `dt` units of time: every callback whose deadline has been reached
runs `cache.Remove(url)` and is no longer pending. -/
def elapse (dt : Nat) (s : State) : State :=
  let now := s.now + (dt : Int)
  { s with
    now := now
    cache := (s.timers.filter (fun t => decide (t.1 ≤ now))).foldl
      (fun c t => c.Remove t.2) s.cache
    timers := s.timers.filter (fun t => !decide (t.1 ≤ now)) }

/-- The function `forwardRequest`: one outbound call to `url`. -/
def forwardRequest (net : Network) (url : String) (s : State) : Outcome × State :=
  (net s.forwarded url, { s with forwarded := s.forwarded ++ [url] })

/-- The function `sendNotificationToSlack`: one post to the webhook, recorded by
its message; the source only logs whether delivery worked. -/
def sendNotificationToSlack (message : String) (s : State) : State :=
  { s with slack := s.slack ++ [message] }

/-- The `for _, url := range urls` loop of `tryForwardRequests`. -/
def forwardLoop (net : Network) : List String → State → Bool × State
  | [], s => (false, s)
  | url :: rest, s =>
    let (found, c) := s.cache.Get url
    let s := { s with cache := c }
    if found then forwardLoop net rest s
    else
      match forwardRequest net url s with
      | (.transportError, s) => forwardLoop net rest (addToCacheWithTTL url s.cfg.cacheTTL s)
      | (.response status body, s) =>
        if status ≠ StatusTooManyRequests then
          match body with
          | none =>
            (true, { s with written := s.written ++
              [httpError "Failed to read response body" StatusInternalServerError] })
          | some b =>
            (true, { s with written := s.written ++ [⟨status, b⟩],
                            printed := s.printed ++ [(status, url)] })
        else forwardLoop net rest (addToCacheWithTTL url s.cfg.cacheTTL s)

/-- The function `tryForwardRequests`: shuffle, then run the loop. -/
def tryForwardRequests (net : Network) (rnd : Rand) (urls : List String) (s : State) :
    Bool × State :=
  forwardLoop net (shuffleURLs rnd urls).shuffled s

/-- First alert message of `loadBalancer`. -/
def warningMessage : String := "WARNING : All RPCs are reaching their ratelimits."

/-- Second alert message of `loadBalancer`. -/
def fatalMessage : String := "FATAL : Even fallback RPCs are reaching their ratelimits."

/-- The handler `loadBalancer`; `rnd₁` and `rnd₂` are the random draws of the two
shuffles. -/
def loadBalancer (net : Network) (rnd₁ rnd₂ : Rand) (s : State) : State :=
  match tryForwardRequests net rnd₁ s.cfg.RPCs s with
  | (true, s) => s
  | (false, s) =>
    let s := sendNotificationToSlack warningMessage s
    match tryForwardRequests net rnd₂ s.cfg.FallbackRPC s with
    | (true, s) => s
    | (false, s) =>
      let s := sendNotificationToSlack fatalMessage s
      { s with written := s.written ++
          [httpError "All RPCs are reaching their ratelimits." StatusInternalServerError] }

/-! ## Time and traces of cache operations -/

/-- The operations on the exclusion cache that the program performs between two
observations: an admission by `addToCacheWithTTL` with the configured TTL, a lookup
`cache.Get`, and the passing of time. -/
inductive Event where
  | add (url : String)
  | lookup (url : String)
  | wait (dt : Nat)
deriving DecidableEq, Repr

/-- Effect of one operation. -/
def step (s : State) : Event → State
  | .add url => addToCacheWithTTL url s.cfg.cacheTTL s
  | .lookup url => { s with cache := (s.cache.Get url).2 }
  | .wait dt => elapse dt s

/-- Effect of a sequence of operations, first to last. -/
def run (es : List Event) (s : State) : State := es.foldl step s

/-- The admission `cache.Set(url, true)` does not push another key out: `url` is
already held, or the cache is below its capacity. -/
def TwoQueue.hasRoomFor (c : TwoQueue) (url : String) : Bool :=
  (c.Get url).1 || decide (c.Len < c.size)

/-- No admission in the sequence pushes a key out of the cache. -/
def noEviction : List Event → State → Bool
  | [], _ => true
  | .add url :: es, s => s.cache.hasRoomFor url && noEviction es (step s (.add url))
  | e :: es, s => noEviction es (step s e)

/-- Total time that passes during a sequence of operations. -/
def duration : List Event → Nat
  | [] => 0
  | .wait dt :: es => dt + duration es
  | _ :: es => duration es

/-! ## Start-up -/

/-- What start-up reads from outside: the process environment, and the parsed
content of the file `.env` (`none` when `godotenv.Load` returns an error). -/
structure OS where
  environ : List (String × String)
  dotenv : Option (List (String × String))
deriving DecidableEq, Repr

/-- The call `os.Getenv(key)`: the empty string when the variable is not set. -/
def Getenv (environ : List (String × String)) (key : String) : String :=
  (environ.lookup key).getD ""

/-- The call `godotenv.Load(".env")`: variables of the file are added to the
environment unless they are set already. -/
def godotenvLoad (os : OS) : Option (List (String × String)) :=
  os.dotenv.map (fun file => os.environ ++ file)

/-- The environment as the rest of `init` sees it: outside production the file
`.env` is loaded first. -/
def loadEnv (os : OS) : Option (List (String × String)) :=
  if Getenv os.environ "ENV" ≠ "production" then godotenvLoad os else some os.environ

/-- Splitting at commas, on character lists. -/
def splitComma : List Char → List (List Char)
  | [] => [[]]
  | c :: cs =>
    if c = ',' then [] :: splitComma cs
    else
      match splitComma cs with
      | [] => [[c]]
      | w :: ws => (c :: w) :: ws

/-- The call `strings.Split(s, ",")`. -/
def stringsSplit (s : String) : List String :=
  (splitComma s.toList).map String.mk

/-- Value of a non-empty string of decimal digits. -/
def parseDigits : List Char → Option Nat
  | [] => none
  | ds => if ds.all Char.isDigit then
      some (ds.foldl (fun n c => 10 * n + (c.toNat - '0'.toNat)) 0) else none

/-- The call `strconv.Atoi(s)`: an optional sign and decimal digits, within the
range of a 64-bit integer; `none` stands for a returned error. -/
def Atoi (s : String) : Option Int :=
  match s.toList with
  | '-' :: ds => (parseDigits ds).bind fun n =>
      if n ≤ 2 ^ 63 then some (-(n : Int)) else none
  | '+' :: ds => (parseDigits ds).bind fun n =>
      if n < 2 ^ 63 then some (n : Int) else none
  | ds => (parseDigits ds).bind fun n =>
      if n < 2 ^ 63 then some (n : Int) else none

/-- The constant `time.Minute`, in nanoseconds. -/
def Minute : Int := 60000000000

/-- Multiplication of 64-bit durations wraps around. -/
def wrapInt64 (x : Int) : Int := (x + 2 ^ 63) % 2 ^ 64 - 2 ^ 63

/-- The function `init`; `Except.error` stands for a call of `log.Fatal`. -/
def init (os : OS) : Except String Config :=
  match loadEnv os with
  | none => .error "Error loading .env file"
  | some environ =>
    let RPCs := stringsSplit (Getenv environ "RPCs")
    let FallbackRPC := stringsSplit (Getenv environ "FALLBACK_RPCs")
    let port := Getenv environ "PORT"
    match Atoi (Getenv environ "ERROR_TIME_TO_LIVE_MINUTES") with
    | none => .error "Invalid duration for ERROR_TIME_TO_LIVE_MINUTES"
    | some duration =>
      let cacheTTL := wrapInt64 (duration * Minute)
      if RPCs.length = 0 then .error "No RPCs provided"
      else if FallbackRPC.length = 0 then .error "No fallback RPC provided"
      else
        let slackURL := Getenv environ "SLACK_WEBHOOK_URL"
        if slackURL = "" then .error "Slack webhook URL is not set"
        else .ok { RPCs := RPCs, FallbackRPC := FallbackRPC, port := port,
                   cacheTTL := cacheTTL, slackURL := slackURL }

/-- The function `main` up to the call of `http.ListenAndServe`: create the cache
of capacity 10 and default the port; the server then listens on `cfg.port`. -/
def main (cfg : Config) : State :=
  { cfg := { cfg with port := if cfg.port = "" then "8080" else cfg.port }
    cache := TwoQueue.New 10
    timers := []
    now := 0
    forwarded := []
    written := []
    slack := []
    printed := [] }

/-- Start-up: `init` followed by `main`. -/
def startup (os : OS) : Except String State := (init os).map main

/-! ## Vocabulary of the specification -/

/-- The outcome class `Usable` of the specification: a response whose status is
not 429. -/
def Outcome.usable : Outcome → Bool
  | .transportError => false
  | .response status _ => decide (status ≠ StatusTooManyRequests)

/-- The reply the caller gets when a usable outcome is relayed. -/
def Outcome.relayed : Outcome → Reply
  | .response status (some b) => ⟨status, b⟩
  | _ => httpError "Failed to read response body" StatusInternalServerError

/-- State after the outcome `o` of the attempt to `url` has been relayed: the reply
is written and, when the body could be read, the line is printed. -/
def relayState (o : Outcome) (url : String) (s : State) : State :=
  { s with
    written := s.written ++ [o.relayed]
    printed := s.printed ++
      (match o with
       | .response status (some _) => [(status, url)]
       | _ => []) }

/-- A key is held by the cache: a lookup would find it. -/
def TwoQueue.holds (c : TwoQueue) (key : String) : Prop :=
  key ∈ c.frequent.keys ∨ key ∈ c.recent.keys

/-- Consistency of a cache state; it holds for `New size` with `size > 0` and is
kept by every operation. -/
def TwoQueue.WF (c : TwoQueue) : Prop :=
  c.recent.size = c.size ∧ c.frequent.size = c.size ∧ c.recentSize < c.size ∧
  c.recent.Len + c.frequent.Len ≤ c.size ∧
  ∀ k, k ∈ c.frequent.keys → k ∉ c.recent.keys

/-- State in which a traversal of `order` reaches position `i`, when no candidate
before it has been relayed. -/
def reach (net : Network) (order : List String) (s : State) (i : Nat) : Bool × State :=
  forwardLoop net (order.take i) s

/-! ## Scenarios used as concrete inputs -/

/-- Identity outcome of the random source: every step swaps a position with
itself, so the traversal order is the order of the pool. -/
def rndKeep : Rand := fun i => i

/-- Eleven distinct endpoints, one more than the capacity of the cache. -/
def elevenEndpoints : List String :=
  ["e1", "e2", "e3", "e4", "e5", "e6", "e7", "e8", "e9", "e10", "e11"]

/-- Every endpoint answers 429. -/
def allRateLimited : Network := fun _ _ => .response 429 (some "")

/-- Endpoint `C` answers 200 with body `ok`; every other endpoint answers 429. -/
def scenarioABC : Network :=
  fun _ u => if u = "C" then .response 200 (some "ok") else .response 429 (some "")

/-- Outcome of the random source that always draws 0: the pool `A`, `B`, `C` is
traversed in the order `B`, `C`, `A`. -/
def rndZero : Rand := fun _ => 0

/-- Every endpoint answers 200 with a body that cannot be read. -/
def allUnreadable : Network := fun _ _ => .response 200 none

/-- A freshly started server with the given pools and a TTL of one minute. -/
def freshServer (primary fallback : List String) : State :=
  main { RPCs := primary, FallbackRPC := fallback, port := "", cacheTTL := Minute,
         slackURL := "https://hooks.example/T" }

/-- A production environment in which every variable but `PORT` is set. -/
def envWithoutPort : OS :=
  { environ := [("ENV", "production"), ("RPCs", "http://a,http://b"),
      ("FALLBACK_RPCs", "http://f"), ("ERROR_TIME_TO_LIVE_MINUTES", "1"),
      ("SLACK_WEBHOOK_URL", "https://hooks.example/T")]
    dotenv := none }

/-- A production environment in which neither pool variable is set. -/
def envWithoutPools : OS :=
  { environ := [("ENV", "production"), ("PORT", "9000"),
      ("ERROR_TIME_TO_LIVE_MINUTES", "1"), ("SLACK_WEBHOOK_URL", "https://hooks.example/T")]
    dotenv := none }

end LoadBalancer

/-! ## Facts about the cache -/

namespace LoadBalancer

namespace TwoQueue

theorem Get_fst_iff (c : TwoQueue) (k : String) : (c.Get k).1 = true ↔ c.holds k := by
  unfold Get LRU.Get LRU.Peek holds
  by_cases h1 : k ∈ c.frequent.keys
  · simp [h1]
  · by_cases h2 : k ∈ c.recent.keys <;> simp [h1, h2]

theorem Get_miss (c : TwoQueue) (k : String) (h : (c.Get k).1 = false) : (c.Get k).2 = c := by
  revert h
  unfold Get LRU.Get LRU.Peek
  by_cases h1 : k ∈ c.frequent.keys
  · simp [h1]
  · by_cases h2 : k ∈ c.recent.keys <;> simp [h1, h2]

theorem holds_of_Get {c : TwoQueue} {k u : String} (h : (c.Get k).2.holds u) : c.holds u := by
  revert h
  unfold Get LRU.Get LRU.Peek LRU.Set LRU.Remove holds
  by_cases h1 : k ∈ c.frequent.keys
  · simp only [h1, if_true]
    rintro (h | h)
    · rcases List.mem_cons.mp h with rfl | h
      · exact Or.inl h1
      · exact Or.inl (List.mem_filter.mp h).1
    · exact Or.inr h
  · by_cases h2 : k ∈ c.recent.keys
    · simp only [h1, h2, if_false, if_true, decide_True]
      rintro (h | h)
      · rcases List.mem_of_mem_take h with h
        rcases List.mem_cons.mp h with rfl | h
        · exact Or.inr h2
        · exact Or.inl h
      · exact Or.inr (List.mem_filter.mp h).1
    · simp [h1, h2]

theorem ensureSpace_sub {c : TwoQueue} {b : Bool} {u : String}
    (h : (c.ensureSpace b).holds u) : c.holds u := by
  revert h
  unfold ensureSpace LRU.RemoveOldest holds
  simp only []
  split
  · exact id
  · split
    · cases hl : c.recent.keys.getLast? <;> simp only [] <;> rintro (h | h)
      · exact Or.inl h
      · exact Or.inr (List.mem_of_mem_dropLast h)
      · exact Or.inl h
      · exact Or.inr (List.mem_of_mem_dropLast h)
    · rintro (h | h)
      · exact Or.inl (List.mem_of_mem_dropLast h)
      · exact Or.inr h

theorem LRU_Set_sub {l : LRU} {k u : String} (h : u ∈ (l.Set k).keys) : u = k ∨ u ∈ l.keys := by
  revert h
  unfold LRU.Set
  split
  · intro h
    rcases List.mem_cons.mp h with rfl | h
    · exact Or.inl rfl
    · exact Or.inr (List.mem_filter.mp h).1
  · intro h
    rcases List.mem_cons.mp (List.mem_of_mem_take h) with rfl | h
    · exact Or.inl rfl
    · exact Or.inr h

theorem holds_Set_sub {c : TwoQueue} {k u : String} (h : (c.Set k).holds u) :
    u = k ∨ c.holds u := by
  revert h
  unfold Set
  split
  · rintro (h | h)
    · exact (LRU_Set_sub h).imp id Or.inl
    · exact Or.inr (Or.inr h)
  · split
    · rintro (h | h)
      · exact (LRU_Set_sub h).imp id Or.inl
      · exact Or.inr (Or.inr (List.mem_filter.mp h).1)
    · split
      · rintro (h | h)
        · rcases LRU_Set_sub h with rfl | h
          · exact Or.inl rfl
          · exact Or.inr (ensureSpace_sub (Or.inl h))
        · exact Or.inr (ensureSpace_sub (Or.inr h))
      · rintro (h | h)
        · exact Or.inr (ensureSpace_sub (Or.inl h))
        · rcases LRU_Set_sub h with rfl | h
          · exact Or.inl rfl
          · exact Or.inr (ensureSpace_sub (Or.inr h))

theorem holds_of_Remove {c : TwoQueue} {k u : String} (h : (c.Remove k).holds u) :
    c.holds u := by
  revert h
  unfold Remove LRU.Remove holds
  by_cases h1 : k ∈ c.frequent.keys
  · simp only [h1, decide_True]
    exact Or.imp (fun h => (List.mem_filter.mp h).1) id
  · by_cases h2 : k ∈ c.recent.keys
    · simp only [h1, h2, decide_True, decide_False]
      exact Or.imp id (fun h => (List.mem_filter.mp h).1)
    · simp only [h1, h2, decide_False]
      exact id

theorem holds_Remove_of_ne {c : TwoQueue} {k u : String} (h : c.holds u) (hne : u ≠ k) :
    (c.Remove k).holds u := by
  revert h
  unfold Remove LRU.Remove holds
  have hf : ∀ l : List String, u ∈ l → u ∈ l.filter (fun x => decide (x ≠ k)) := fun l hl =>
    List.mem_filter.mpr ⟨hl, by simpa using hne⟩
  by_cases h1 : k ∈ c.frequent.keys
  · simp only [h1, decide_True]
    exact Or.imp (hf _) id
  · by_cases h2 : k ∈ c.recent.keys
    · simp only [h1, h2, decide_True, decide_False]
      exact Or.imp id (hf _)
    · simp only [h1, h2, decide_False]
      exact id

theorem not_holds_Remove {c : TwoQueue} (hc : c.WF) (k : String) : ¬ (c.Remove k).holds k := by
  obtain ⟨-, -, -, -, hd⟩ := hc
  unfold Remove LRU.Remove holds
  have hf : ∀ l : List String, k ∉ l.filter (fun x => decide (x ≠ k)) := fun l hl => by
    simpa using (List.mem_filter.mp hl).2
  by_cases h1 : k ∈ c.frequent.keys
  · simp only [h1, decide_True]
    rintro (h | h)
    · exact hf _ h
    · exact hd k h1 h
  · by_cases h2 : k ∈ c.recent.keys
    · simp only [h1, h2, decide_True, decide_False]
      rintro (h | h)
      · exact h
      · exact hf _ h
    · simp only [h1, h2, decide_False]
      rintro (h | h) <;> exact h

theorem WF_New {n : Nat} (h : 0 < n) : (New n).WF := by
  refine ⟨rfl, rfl, ?_, ?_, ?_⟩
  · show n / 4 < n
    omega
  · simp [New, LRU.Len]
  · intro k hk
    simp [New] at hk

theorem filter_ne_length_lt {l : List String} {k : String} (h : k ∈ l) :
    (l.filter (fun x => decide (x ≠ k))).length < l.length :=
  List.length_filter_lt_length_iff_exists.mpr ⟨k, h, by simp⟩

theorem mem_filter_ne {l : List String} {k u : String} (h : u ∈ l) (hne : u ≠ k) :
    u ∈ l.filter (fun x => decide (x ≠ k)) :=
  List.mem_filter.mpr ⟨h, by simpa using hne⟩

theorem LRU_Set_size (l : LRU) (k : String) : (l.Set k).size = l.size := by
  unfold LRU.Set; split <;> rfl

theorem LRU_Set_len_le (l : LRU) (k : String) : (l.Set k).Len ≤ l.Len + 1 := by
  unfold LRU.Set LRU.Len
  split
  · rename_i h
    have := filter_ne_length_lt h
    simp only [List.length_cons]
    omega
  · simp only [List.length_take, List.length_cons]
    omega

theorem LRU_Set_mem {l : LRU} {k u : String} (hu : u ∈ l.keys ∨ u = k)
    (hroom : k ∈ l.keys ∨ l.Len < l.size) : u ∈ (l.Set k).keys := by
  unfold LRU.Set
  by_cases hk : k ∈ l.keys
  · simp only [hk, if_true]
    by_cases e : u = k
    · exact e ▸ List.mem_cons_self _ _
    · exact List.mem_cons_of_mem _ (mem_filter_ne (hu.resolve_right e) e)
  · simp only [hk, if_false]
    have hlen : l.keys.length < l.size := hroom.resolve_left hk
    rw [List.take_of_length_le (by simpa using hlen)]
    rcases hu with hu | rfl
    · exact List.mem_cons_of_mem _ hu
    · exact List.mem_cons_self _ _

theorem ensureSpace_of_room {c : TwoQueue} (b : Bool) (h : c.Len < c.size) :
    c.ensureSpace b = c := by
  have h' : c.recent.Len + c.frequent.Len < c.size := h
  unfold ensureSpace
  simp only []
  rw [if_pos h']

theorem ensureSpace_spec {c : TwoQueue} (hc : c.WF) (b : Bool) :
    (c.ensureSpace b).WF ∧ (c.ensureSpace b).Len < c.size ∧
    (c.ensureSpace b).size = c.size := by
  obtain ⟨h1, h2, h3, h4, h5⟩ := hc
  unfold ensureSpace LRU.RemoveOldest
  simp only []
  split
  · rename_i hlt
    exact ⟨⟨h1, h2, h3, h4, h5⟩, hlt, rfl⟩
  · rename_i hge
    split
    · rename_i hcond
      have hdl : c.recent.keys.dropLast.length = c.recent.keys.length - 1 :=
        List.length_dropLast _
      have hpos : 0 < c.recent.keys.length := hcond.1
      cases hl : c.recent.keys.getLast? <;>
        refine ⟨⟨h1, h2, h3, ?_, ?_⟩, ?_, rfl⟩ <;>
        simp only [Len, LRU.Len] at * <;>
        first
          | omega
          | (intro k hk hk2; exact h5 k hk (List.mem_of_mem_dropLast hk2))
    · rename_i hcond
      have hdl : c.frequent.keys.dropLast.length = c.frequent.keys.length - 1 :=
        List.length_dropLast _
      have hpos : 0 < c.frequent.keys.length := by
        by_contra h0
        apply hcond
        simp only [LRU.Len] at *
        refine ⟨by omega, ?_⟩
        left; omega
      refine ⟨⟨h1, h2, h3, ?_, ?_⟩, ?_, rfl⟩
      · simp only [LRU.Len] at *
        omega
      · intro k hk hk2
        exact h5 k (List.mem_of_mem_dropLast hk) hk2
      · simp only [Len, LRU.Len] at *
        omega

theorem WF_Get {c : TwoQueue} (hc : c.WF) (k : String) : (c.Get k).2.WF := by
  obtain ⟨h1, h2, h3, h4, h5⟩ := hc
  unfold Get LRU.Get LRU.Peek LRU.Remove
  by_cases hf : k ∈ c.frequent.keys
  · simp only [hf, if_true]
    have := filter_ne_length_lt hf
    refine ⟨h1, h2, h3, ?_, ?_⟩
    · simp only [LRU.Len, List.length_cons] at *
      omega
    · intro x hx
      rcases List.mem_cons.mp hx with rfl | hx
      · exact h5 _ hf
      · exact h5 _ (List.mem_filter.mp hx).1
  · by_cases hr : k ∈ c.recent.keys
    · simp only [hf, hr, if_false, if_true, decide_True]
      have := filter_ne_length_lt hr
      have hs := LRU_Set_len_le c.frequent k
      refine ⟨h1, (LRU_Set_size _ _).trans h2, h3, ?_, ?_⟩
      · simp only [LRU.Len] at *
        omega
      · intro x hx hx2
        rcases LRU_Set_sub hx with rfl | hx
        · simpa using (List.mem_filter.mp hx2).2
        · exact h5 _ hx (List.mem_filter.mp hx2).1
    · simp only [hf, hr, if_false, decide_False]
      exact ⟨h1, h2, h3, h4, h5⟩

theorem holds_Get_of_holds {c : TwoQueue} (hc : c.WF) {u : String} (k : String)
    (hu : c.holds u) : (c.Get k).2.holds u := by
  obtain ⟨h1, h2, h3, h4, h5⟩ := hc
  revert hu
  unfold Get LRU.Get LRU.Peek LRU.Remove holds
  by_cases hf : k ∈ c.frequent.keys
  · simp only [hf, if_true]
    rintro (h | h)
    · by_cases e : u = k
      · exact Or.inl (e ▸ List.mem_cons_self _ _)
      · exact Or.inl (List.mem_cons_of_mem _ (mem_filter_ne h e))
    · exact Or.inr h
  · by_cases hr : k ∈ c.recent.keys
    · simp only [hf, hr, if_false, if_true, decide_True]
      have hroom : c.frequent.Len < c.frequent.size := by
        have := List.length_pos_of_mem hr
        simp only [LRU.Len] at *
        omega
      rintro (h | h)
      · exact Or.inl (LRU_Set_mem (Or.inl h) (Or.inr hroom))
      · by_cases e : u = k
        · exact Or.inl (LRU_Set_mem (Or.inr e) (Or.inr hroom))
        · exact Or.inr (mem_filter_ne h e)
    · simp only [hf, hr, if_false, decide_False]
      exact id

theorem WF_Remove {c : TwoQueue} (hc : c.WF) (k : String) : (c.Remove k).WF := by
  obtain ⟨h1, h2, h3, h4, h5⟩ := hc
  unfold Remove LRU.Remove
  have hfl := List.length_filter_le (fun x => decide (x ≠ k)) c.frequent.keys
  have hrl := List.length_filter_le (fun x => decide (x ≠ k)) c.recent.keys
  by_cases hf : k ∈ c.frequent.keys
  · simp only [hf, decide_True]
    refine ⟨h1, h2, h3, ?_, fun x hx => h5 x (List.mem_filter.mp hx).1⟩
    simp only [LRU.Len] at *
    omega
  · by_cases hr : k ∈ c.recent.keys
    · simp only [hf, hr, decide_True, decide_False]
      refine ⟨h1, h2, h3, ?_, fun x hx hx2 => h5 x hx (List.mem_filter.mp hx2).1⟩
      simp only [LRU.Len] at *
      omega
    · simp only [hf, hr, decide_False]
      exact ⟨h1, h2, h3, h4, h5⟩

theorem WF_Set {c : TwoQueue} (hc : c.WF) (k : String) : (c.Set k).WF := by
  have hc' := hc
  obtain ⟨h1, h2, h3, h4, h5⟩ := hc
  unfold Set LRU.Peek LRU.Remove
  by_cases hf : k ∈ c.frequent.keys
  · simp only [hf, decide_True, if_true]
    refine ⟨h1, (LRU_Set_size _ _).trans h2, h3, ?_, ?_⟩
    · have : (c.frequent.Set k).Len ≤ c.frequent.Len := by
        have := filter_ne_length_lt hf
        unfold LRU.Set LRU.Len
        simp only [hf, if_true, List.length_cons]
        omega
      show c.recent.Len + (c.frequent.Set k).Len ≤ c.size
      omega
    · intro x hx
      rcases LRU_Set_sub hx with rfl | hx
      · exact h5 _ hf
      · exact h5 _ hx
  · by_cases hr : k ∈ c.recent.keys
    · simp only [hf, hr, decide_True, decide_False, if_true, if_false, Bool.false_eq_true]
      have := filter_ne_length_lt hr
      have hs := LRU_Set_len_le c.frequent k
      refine ⟨h1, (LRU_Set_size _ _).trans h2, h3, ?_, ?_⟩
      · simp only [LRU.Len] at *
        omega
      · intro x hx hx2
        rcases LRU_Set_sub hx with rfl | hx
        · simpa using (List.mem_filter.mp hx2).2
        · exact h5 _ hx (List.mem_filter.mp hx2).1
    · simp only [hf, hr, decide_False, if_false, Bool.false_eq_true]
      split
      · obtain ⟨⟨g1, g2, g3, g4, g5⟩, glt, gsz⟩ := ensureSpace_spec hc' true
        have hs := LRU_Set_len_le (c.ensureSpace true).frequent k
        refine ⟨g1, (LRU_Set_size _ _).trans g2, g3, ?_, ?_⟩
        · simp only [Len, LRU.Len] at *
          omega
        · intro x hx hx2
          rcases LRU_Set_sub hx with rfl | hx
          · exact hr ((ensureSpace_sub (Or.inr hx2)).elim (fun h => absurd h hf) id)
          · exact g5 _ hx hx2
      · obtain ⟨⟨g1, g2, g3, g4, g5⟩, glt, gsz⟩ := ensureSpace_spec hc' false
        have hs := LRU_Set_len_le (c.ensureSpace false).recent k
        refine ⟨(LRU_Set_size _ _).trans g1, g2, g3, ?_, ?_⟩
        · simp only [Len, LRU.Len] at *
          omega
        · intro x hx hx2
          rcases LRU_Set_sub hx2 with rfl | hx2
          · exact hf ((ensureSpace_sub (Or.inl hx)).elim id (fun h => absurd h hr))
          · exact g5 _ hx hx2

theorem holds_Set_of_holds {c : TwoQueue} (hc : c.WF) {u k : String}
    (hu : c.holds u ∨ u = k) (hroom : c.hasRoomFor k = true) : (c.Set k).holds u := by
  have hroom' : c.holds k ∨ c.Len < c.size := by
    unfold hasRoomFor at hroom
    rcases Bool.or_eq_true _ _ ▸ hroom with h | h
    · exact Or.inl ((Get_fst_iff c k).mp h)
    · exact Or.inr (of_decide_eq_true h)
  obtain ⟨h1, h2, h3, h4, h5⟩ := hc
  unfold Set LRU.Peek LRU.Remove holds
  by_cases hf : k ∈ c.frequent.keys
  · simp only [hf, decide_True, if_true]
    rcases hu with (hu | hu) | rfl
    · exact Or.inl (LRU_Set_mem (Or.inl hu) (Or.inl hf))
    · exact Or.inr hu
    · exact Or.inl (LRU_Set_mem (Or.inr rfl) (Or.inl hf))
  · by_cases hr : k ∈ c.recent.keys
    · simp only [hf, hr, decide_True, decide_False, if_true, if_false, Bool.false_eq_true]
      have hfr : c.frequent.Len < c.frequent.size := by
        have := List.length_pos_of_mem hr
        simp only [LRU.Len] at *
        omega
      rcases hu with (hu | hu) | rfl
      · exact Or.inl (LRU_Set_mem (Or.inl hu) (Or.inr hfr))
      · by_cases e : u = k
        · exact Or.inl (LRU_Set_mem (Or.inr e) (Or.inr hfr))
        · exact Or.inr (mem_filter_ne hu e)
      · exact Or.inl (LRU_Set_mem (Or.inr rfl) (Or.inr hfr))
    · have hlt : c.Len < c.size := hroom'.resolve_left (fun h => h.elim hf hr)
      simp only [hf, hr, decide_False, if_false, Bool.false_eq_true]
      simp only [ensureSpace_of_room _ hlt]
      have hfr : c.frequent.Len < c.frequent.size := by
        simp only [Len, LRU.Len] at *
        omega
      have hrr : c.recent.Len < c.recent.size := by
        simp only [Len, LRU.Len] at *
        omega
      split
      · rcases hu with (hu | hu) | rfl
        · exact Or.inl (LRU_Set_mem (Or.inl hu) (Or.inr hfr))
        · exact Or.inr hu
        · exact Or.inl (LRU_Set_mem (Or.inr rfl) (Or.inr hfr))
      · rcases hu with (hu | hu) | rfl
        · exact Or.inl hu
        · exact Or.inr (LRU_Set_mem (Or.inl hu) (Or.inr hrr))
        · exact Or.inr (LRU_Set_mem (Or.inr rfl) (Or.inr hrr))

theorem holds_Set_self {c : TwoQueue} (hc : c.WF) (k : String) : (c.Set k).holds k := by
  have hc' := hc
  obtain ⟨h1, h2, h3, h4, h5⟩ := hc
  by_cases hroom : c.hasRoomFor k = true
  · exact holds_Set_of_holds hc' (Or.inr rfl) hroom
  · have hnot : ¬ c.holds k := fun h => hroom (by
      unfold hasRoomFor
      rw [(Get_fst_iff c k).mpr h]; rfl)
    have hf : k ∉ c.frequent.keys := fun h => hnot (Or.inl h)
    have hr : k ∉ c.recent.keys := fun h => hnot (Or.inr h)
    unfold Set LRU.Peek LRU.Remove holds
    simp only [hf, hr, decide_False, if_false, Bool.false_eq_true]
    split
    · obtain ⟨⟨g1, g2, g3, g4, g5⟩, glt, gsz⟩ := ensureSpace_spec hc' true
      refine Or.inl (LRU_Set_mem (Or.inr rfl) (Or.inr ?_))
      simp only [Len, LRU.Len] at *
      omega
    · obtain ⟨⟨g1, g2, g3, g4, g5⟩, glt, gsz⟩ := ensureSpace_spec hc' false
      refine Or.inr (LRU_Set_mem (Or.inr rfl) (Or.inr ?_))
      simp only [Len, LRU.Len] at *
      omega

end TwoQueue

/-! ## Shuffle -/

theorem swap_perm (l : List String) {i j : Nat} (hi : i < l.length) (hj : j < l.length) :
    (swap l i j).Perm l := by
  rw [List.perm_iff_count]
  intro b
  have hj' : j < (l.set i (l.getD j "")).length := by simpa using hj
  unfold swap
  rw [List.count_set _ _ _ _ hj', List.count_set _ _ _ _ hi]
  have e1 : l.getD j "" = l[j] := by simp [List.getD_eq_getElem, hj]
  have e2 : l.getD i "" = l[i] := by simp [List.getD_eq_getElem, hi]
  have e3 : (l.set i (l.getD j ""))[j] = l[j] := by
    rw [List.getElem_set]; split
    · exact e1
    · rfl
  rw [e3, e1, e2]
  have p1 : l[i] = b → 0 < l.count b := fun h => by
    rw [List.count_pos_iff]; exact h ▸ List.getElem_mem hi
  have p2 : l[j] = b → 0 < l.count b := fun h => by
    rw [List.count_pos_iff]; exact h ▸ List.getElem_mem hj
  by_cases h1 : l[i] = b
  · have := p1 h1
    by_cases h2 : l[j] = b <;> simp [h1, h2] <;> omega
  · by_cases h2 : l[j] = b
    · have := p2 h2
      simp [h1, h2]
    · simp [h1, h2]

theorem randShuffleFrom_swap (rnd : Rand) (i : Nat) (m : ShuffleMem)
    (hi : i < m.shuffled.length) :
    (randShuffleFrom rnd (fun i j m => { m with shuffled := swap m.shuffled i j }) i m).urls
        = m.urls ∧
    (randShuffleFrom rnd (fun i j m => { m with shuffled := swap m.shuffled i j }) i
        m).shuffled.Perm m.shuffled := by
  induction i generalizing m with
  | zero => exact ⟨rfl, List.Perm.refl _⟩
  | succ i ih =>
    have hj : rnd (i + 1) % (i + 2) < m.shuffled.length :=
      lt_of_le_of_lt (Nat.lt_succ_iff.mp (Nat.mod_lt _ (by omega))) hi
    have hp := swap_perm m.shuffled hi hj
    have := ih { m with shuffled := swap m.shuffled (i + 1) (rnd (i + 1) % (i + 2)) }
      (by simpa [hp.length_eq] using Nat.lt_of_succ_lt hi)
    exact ⟨this.1, this.2.trans hp⟩

theorem shuffled_perm (rnd : Rand) (urls : List String) :
    (shuffleURLs rnd urls).shuffled.Perm urls := by
  unfold shuffleURLs randShuffle
  cases urls with
  | nil => exact List.Perm.refl _
  | cons a t => exact (randShuffleFrom_swap rnd _ ⟨a :: t, a :: t⟩ (by simp)).2

/-! ## The forwarding loop -/

theorem excluded_iff (s : State) (u : String) : excluded s u = true ↔ s.cache.holds u :=
  TwoQueue.Get_fst_iff _ _

theorem excluded_false_iff (s : State) (u : String) :
    excluded s u = false ↔ ¬ s.cache.holds u := by
  rw [← excluded_iff]; simp

/-- One iteration of the loop, by cases: the candidate is skipped, relayed, or
admitted to the cache. -/
theorem forwardLoop_cons (net : Network) (url : String) (rest : List String) (s : State) :
    forwardLoop net (url :: rest) s =
      if excluded s url = true then forwardLoop net rest (step s (.lookup url))
      else if (net s.forwarded url).usable = true then
        (true, relayState (net s.forwarded url) url (forwardRequest net url s).2)
      else forwardLoop net rest (step (forwardRequest net url s).2 (.add url)) := by
  by_cases hx : excluded s url = true
  · have hx' : (s.cache.Get url).1 = true := hx
    rw [if_pos hx]
    conv_lhs => unfold forwardLoop
    simp only [hx', if_true, step]
  · have hx' : (s.cache.Get url).1 = false := by simpa [excluded] using hx
    have hc : (s.cache.Get url).2 = s.cache := TwoQueue.Get_miss _ _ hx'
    rw [if_neg hx]
    conv_lhs => unfold forwardLoop
    simp only [hx', hc, forwardRequest, step, relayState]
    cases ho : net s.forwarded url with
    | transportError => simp [Outcome.usable]
    | response status body =>
      by_cases hs : status = StatusTooManyRequests
      · simp [Outcome.usable, hs]
      · cases body <;> simp [Outcome.usable, hs, Outcome.relayed]

theorem forwardLoop_frame (net : Network) (l : List String) (s : State) :
    (forwardLoop net l s).2.cfg = s.cfg ∧ (forwardLoop net l s).2.now = s.now ∧
    (forwardLoop net l s).2.slack = s.slack ∧
    (∃ a, (forwardLoop net l s).2.forwarded = s.forwarded ++ a ∧ a.Sublist l) ∧
    ((forwardLoop net l s).1 = false →
      (forwardLoop net l s).2.written = s.written ∧
      (forwardLoop net l s).2.printed = s.printed) := by
  induction l generalizing s with
  | nil => exact ⟨rfl, rfl, rfl, ⟨[], by simp [forwardLoop], List.Sublist.refl _⟩, fun _ => ⟨rfl, rfl⟩⟩
  | cons url rest ih =>
    rw [forwardLoop_cons]
    split
    · obtain ⟨h1, h2, h3, ⟨a, h4, h4'⟩, h5⟩ := ih (step s (.lookup url))
      exact ⟨h1, h2, h3, ⟨a, h4, h4'.cons _⟩, h5⟩
    · split
      · refine ⟨rfl, rfl, rfl, ⟨[url], rfl, ?_⟩, fun h => by simp at h⟩
        exact (List.Sublist.refl _).cons₂ _ |>.trans (List.Sublist.cons₂ _ (List.nil_sublist _))
      · obtain ⟨h1, h2, h3, ⟨a, h4, h4'⟩, h5⟩ :=
          ih (step (forwardRequest net url s).2 (.add url))
        refine ⟨h1, h2, h3, ⟨url :: a, ?_, h4'.cons₂ _⟩, h5⟩
        rw [h4]
        simp [step, addToCacheWithTTL, forwardRequest]

/-- A traversal that returns `true` ends with a forward attempt of its own whose
outcome is usable and writes exactly the reply relayed from that outcome. -/
theorem forwardLoop_true (net : Network) (l : List String) (s : State)
    (h : (forwardLoop net l s).1 = true) :
    ∃ a url, url ∈ l ∧ (forwardLoop net l s).2.forwarded = (s.forwarded ++ a) ++ [url] ∧
      (net (s.forwarded ++ a) url).usable = true ∧
      (forwardLoop net l s).2.written = s.written ++ [(net (s.forwarded ++ a) url).relayed] ∧
      (forwardLoop net l s).2.slack = s.slack := by
  induction l generalizing s with
  | nil => simp [forwardLoop] at h
  | cons url rest ih =>
    rw [forwardLoop_cons] at h ⊢
    split at h
    · rename_i hx
      rw [if_pos hx]
      obtain ⟨a, u, hu, h1, h2, h3, h4⟩ := ih _ h
      exact ⟨a, u, List.mem_cons_of_mem _ hu, h1, h2, h3, h4⟩
    · rename_i hx
      rw [if_neg hx]
      split at h
      · rename_i hu
        rw [if_pos hu]
        exact ⟨[], url, List.mem_cons_self _ _, by simp [relayState, forwardRequest],
          by simpa using hu, by simp [relayState, forwardRequest], rfl⟩
      · rename_i hu
        rw [if_neg hu]
        obtain ⟨a, u, hu, h1, h2, h3, h4⟩ := ih _ h
        have e : (step (forwardRequest net url s).2 (.add url)).forwarded ++ a
            = s.forwarded ++ (url :: a) := by
          simp [step, addToCacheWithTTL, forwardRequest]
        rw [e] at h1 h2 h3
        exact ⟨url :: a, u, List.mem_cons_of_mem _ hu, h1, h2, h3, h4⟩

theorem tryForwardRequests_attempts (net : Network) (rnd : Rand) (urls : List String)
    (s : State) :
    ∃ a, (tryForwardRequests net rnd urls s).2.forwarded = s.forwarded ++ a ∧
      ∀ u, a.count u ≤ urls.count u := by
  obtain ⟨-, -, -, ⟨a, h, hsub⟩, -⟩ := forwardLoop_frame net (shuffleURLs rnd urls).shuffled s
  refine ⟨a, h, fun u => ?_⟩
  exact (hsub.count_le u).trans (le_of_eq ((shuffled_perm rnd urls).count_eq u))

theorem tryForwardRequests_cfg (net : Network) (rnd : Rand) (urls : List String) (s : State) :
    (tryForwardRequests net rnd urls s).2.cfg = s.cfg :=
  (forwardLoop_frame net _ s).1

/-- The handler `loadBalancer` written with the results of its two passes. -/
theorem loadBalancer_eq (net : Network) (rnd₁ rnd₂ : Rand) (s : State) :
    loadBalancer net rnd₁ rnd₂ s =
      if (tryForwardRequests net rnd₁ s.cfg.RPCs s).1 = true then
        (tryForwardRequests net rnd₁ s.cfg.RPCs s).2
      else if (tryForwardRequests net rnd₂ s.cfg.FallbackRPC (sendNotificationToSlack
          warningMessage (tryForwardRequests net rnd₁ s.cfg.RPCs s).2)).1 = true then
        (tryForwardRequests net rnd₂ s.cfg.FallbackRPC (sendNotificationToSlack
          warningMessage (tryForwardRequests net rnd₁ s.cfg.RPCs s).2)).2
      else
        { sendNotificationToSlack fatalMessage
            (tryForwardRequests net rnd₂ s.cfg.FallbackRPC (sendNotificationToSlack
              warningMessage (tryForwardRequests net rnd₁ s.cfg.RPCs s).2)).2 with
          written := (tryForwardRequests net rnd₂ s.cfg.FallbackRPC
              (sendNotificationToSlack warningMessage
                (tryForwardRequests net rnd₁ s.cfg.RPCs s).2)).2.written ++
            [httpError "All RPCs are reaching their ratelimits." StatusInternalServerError] } := by
  have hcfg := tryForwardRequests_cfg net rnd₁ s.cfg.RPCs s
  unfold loadBalancer
  split
  · rename_i sp h
    rw [h]; rfl
  · rename_i sp h
    rw [h] at hcfg ⊢
    have e : (sendNotificationToSlack warningMessage sp).cfg.FallbackRPC = s.cfg.FallbackRPC := by
      show sp.cfg.FallbackRPC = _
      rw [hcfg]
    simp only [e]
    split
    · rename_i sf h2
      rw [h2]; rfl
    · rename_i sf h2
      rw [h2]; rfl

/-- The loop under a fixed assignment of outcomes to endpoints, started in a state
where every held candidate is one whose outcome is not usable. -/
theorem forwardLoop_assignment (outcome : String → Outcome) (l : List String) (s : State)
    (H : ∀ u ∈ l, s.cache.holds u → (outcome u).usable = false) :
    ∃ a, (forwardLoop (fun _ => outcome) l s).2.forwarded = s.forwarded ++ a ∧
      ((forwardLoop (fun _ => outcome) l s).1 = true ↔ ∃ u ∈ l, (outcome u).usable = true) ∧
      ((forwardLoop (fun _ => outcome) l s).1 = true →
        ∃ u ∈ l, (outcome u).usable = true ∧
          a.filter (fun x => (outcome x).usable) = [u] ∧ a.getLast? = some u ∧
          (forwardLoop (fun _ => outcome) l s).2.written = s.written ++ [(outcome u).relayed]) ∧
      ((forwardLoop (fun _ => outcome) l s).1 = false →
        a.filter (fun x => (outcome x).usable) = [] ∧
          (forwardLoop (fun _ => outcome) l s).2.written = s.written) := by
  induction l generalizing s with
  | nil => exact ⟨[], by simp [forwardLoop], by simp [forwardLoop], by simp [forwardLoop],
      fun _ => ⟨rfl, rfl⟩⟩
  | cons url rest ih =>
    rw [forwardLoop_cons]
    by_cases hx : excluded s url = true
    · rw [if_pos hx]
      have hnu : (outcome url).usable = false :=
        H url (List.mem_cons_self _ _) ((excluded_iff s url).mp hx)
      obtain ⟨a, h1, h2, h3, h4⟩ := ih (step s (.lookup url)) (fun u hu hh =>
        H u (List.mem_cons_of_mem _ hu) (TwoQueue.holds_of_Get hh))
      refine ⟨a, h1, ?_, ?_, h4⟩
      · rw [h2]; simp [hnu]
      · intro ht
        obtain ⟨u, hu, r⟩ := h3 ht
        exact ⟨u, List.mem_cons_of_mem _ hu, r⟩
    · rw [if_neg hx]
      by_cases hu : (outcome url).usable = true
      · rw [if_pos hu]
        refine ⟨[url], rfl, ?_, ?_, fun h => by simp at h⟩
        · simp only [true_iff]
          exact ⟨url, List.mem_cons_self _ _, hu⟩
        · intro _
          exact ⟨url, List.mem_cons_self _ _, hu, by simp [hu], rfl, rfl⟩
      · rw [if_neg hu]
        have hnu : (outcome url).usable = false := by simpa using hu
        obtain ⟨a, h1, h2, h3, h4⟩ :=
          ih (step (forwardRequest (fun _ => outcome) url s).2 (.add url)) (fun u hu hh => by
            rcases TwoQueue.holds_Set_sub hh with rfl | hh
            · exact hnu
            · exact H u (List.mem_cons_of_mem _ hu) hh)
        refine ⟨url :: a, ?_, ?_, ?_, ?_⟩
        · rw [h1]; simp [step, addToCacheWithTTL, forwardRequest]
        · rw [h2]; simp [hnu]
        · intro ht
          obtain ⟨u, hu', r1, r2, r3, r4⟩ := h3 ht
          refine ⟨u, List.mem_cons_of_mem _ hu', r1, ?_, ?_, r4⟩
          · simp [hnu, r2]
          · cases a with
            | nil => simp at r3
            | cons x xs => simpa using r3
        · intro hf
          obtain ⟨r1, r2⟩ := h4 hf
          exact ⟨by simp [hnu, r1], r2⟩

/-- Position by position: where a traversal that returns `true` stops, and what it
met before; and what a traversal that returns `false` met at every position. -/
theorem forwardLoop_positions (net : Network) (l : List String) (s : State) :
    ((forwardLoop net l s).1 = true →
      ∃ i c, l[i]? = some c ∧
        (∀ j, j ≤ i → (reach net l s j).1 = false) ∧
        (∀ j u, j < i → l[j]? = some u →
          excluded (reach net l s j).2 u = true ∨
          (net (reach net l s j).2.forwarded u).usable = false) ∧
        excluded (reach net l s i).2 c = false ∧
        (net (reach net l s i).2.forwarded c).usable = true ∧
        (forwardLoop net l s).2 = relayState (net (reach net l s i).2.forwarded c) c
          (forwardRequest net c (reach net l s i).2).2) ∧
    ((forwardLoop net l s).1 = false →
      ∀ j u, l[j]? = some u →
        (reach net l s j).1 = false ∧
        (excluded (reach net l s j).2 u = true ∨
          (net (reach net l s j).2.forwarded u).usable = false)) := by
  induction l generalizing s with
  | nil =>
    refine ⟨fun h => by simp [forwardLoop] at h, fun _ j u hj => by simp at hj⟩
  | cons url rest ih =>
    -- the state in which the rest of the list is traversed, when `url` is not relayed
    have hstep : ∀ s₁ : State,
        (∀ l', forwardLoop net (url :: l') s = forwardLoop net l' s₁) →
        (excluded s url = true ∨ (net s.forwarded url).usable = false) →
        ((forwardLoop net rest s₁).1 = true →
          ∃ i c, (url :: rest)[i]? = some c ∧
            (∀ j, j ≤ i → (reach net (url :: rest) s j).1 = false) ∧
            (∀ j u, j < i → (url :: rest)[j]? = some u →
              excluded (reach net (url :: rest) s j).2 u = true ∨
              (net (reach net (url :: rest) s j).2.forwarded u).usable = false) ∧
            excluded (reach net (url :: rest) s i).2 c = false ∧
            (net (reach net (url :: rest) s i).2.forwarded c).usable = true ∧
            (forwardLoop net rest s₁).2 =
              relayState (net (reach net (url :: rest) s i).2.forwarded c) c
                (forwardRequest net c (reach net (url :: rest) s i).2).2) ∧
        ((forwardLoop net rest s₁).1 = false →
          ∀ j u, (url :: rest)[j]? = some u →
            (reach net (url :: rest) s j).1 = false ∧
            (excluded (reach net (url :: rest) s j).2 u = true ∨
              (net (reach net (url :: rest) s j).2.forwarded u).usable = false)) := by
      intro s₁ hs₁ h0
      have hr : ∀ j, reach net (url :: rest) s (j + 1) = reach net rest s₁ j := fun j => by
        simp only [reach, List.take_succ_cons]
        exact hs₁ _
      have hr0 : reach net (url :: rest) s 0 = (false, s) := by
        simp [reach, forwardLoop]
      obtain ⟨ih1, ih2⟩ := ih s₁
      refine ⟨fun ht => ?_, fun hf => ?_⟩
      · obtain ⟨i, c, hc, a1, a2, a3, a4, a5⟩ := ih1 ht
        refine ⟨i + 1, c, by simpa using hc, ?_, ?_, ?_, ?_, ?_⟩
        · intro j hj
          cases j with
          | zero => rw [hr0]
          | succ j => rw [hr]; exact a1 j (by omega)
        · intro j u hj hu
          cases j with
          | zero =>
            rw [hr0]
            have : url = u := by simpa using hu
            exact this ▸ h0
          | succ j => rw [hr]; exact a2 j u (by omega) (by simpa using hu)
        · rw [hr]; exact a3
        · rw [hr]; exact a4
        · rw [hr]; exact a5
      · intro j u hu
        cases j with
        | zero =>
          rw [hr0]
          have : url = u := by simpa using hu
          exact ⟨rfl, this ▸ h0⟩
        | succ j => rw [hr]; exact ih2 hf j u (by simpa using hu)
    by_cases hx : excluded s url = true
    · have e : ∀ l', forwardLoop net (url :: l') s = forwardLoop net l' (step s (.lookup url)) :=
        fun l' => by rw [forwardLoop_cons, if_pos hx]
      rw [e rest]
      exact hstep _ e (Or.inl hx)
    · by_cases hu : (net s.forwarded url).usable = true
      · rw [forwardLoop_cons, if_neg hx, if_pos hu]
        refine ⟨fun _ => ⟨0, url, by simp, ?_, ?_, ?_, ?_, ?_⟩, fun h => by simp at h⟩
        · intro j hj
          have : j = 0 := by omega
          subst this
          simp [reach, forwardLoop]
        · intro j u hj
          omega
        · simpa [reach, forwardLoop] using hx
        · simpa [reach, forwardLoop] using hu
        · simp [reach, forwardLoop]
      · have e : ∀ l', forwardLoop net (url :: l') s =
            forwardLoop net l' (step (forwardRequest net url s).2 (.add url)) :=
          fun l' => by rw [forwardLoop_cons, if_neg hx, if_neg hu]
        rw [e rest]
        exact hstep _ e (Or.inr (by simpa using hu))

/-- The removals scheduled by a traversal: one for every forward attempt, in order,
except for the attempt that is relayed. -/
theorem forwardLoop_timers (net : Network) (l : List String) (s : State) :
    ∃ a, (forwardLoop net l s).2.forwarded = s.forwarded ++ a ∧
      (forwardLoop net l s).2.timers = s.timers ++
        (if (forwardLoop net l s).1 = true then a.dropLast else a).map
          (fun u => (s.now + s.cfg.cacheTTL, u)) := by
  induction l generalizing s with
  | nil => exact ⟨[], by simp [forwardLoop], by simp [forwardLoop]⟩
  | cons url rest ih =>
    rw [forwardLoop_cons]
    by_cases hx : excluded s url = true
    · rw [if_pos hx]
      exact ih (step s (.lookup url))
    · rw [if_neg hx]
      by_cases hu : (net s.forwarded url).usable = true
      · rw [if_pos hu]
        exact ⟨[url], rfl, by simp [relayState, forwardRequest]⟩
      · rw [if_neg hu]
        obtain ⟨a, h1, h2⟩ := ih (step (forwardRequest net url s).2 (.add url))
        refine ⟨url :: a, ?_, ?_⟩
        · rw [h1]; simp [step, addToCacheWithTTL, forwardRequest]
        · rw [h2]
          by_cases hb : (forwardLoop net rest
              (step (forwardRequest net url s).2 (.add url))).1 = true
          · have hne : a ≠ [] := by
              intro ha
              obtain ⟨a', u, -, hf, -⟩ := forwardLoop_true net rest _ hb
              rw [h1, ha] at hf
              have := congrArg List.length hf
              simp at this
            simp only [hb, if_true]
            rw [List.dropLast_cons_of_ne_nil hne]
            simp [step, addToCacheWithTTL, forwardRequest]
          · simp only [hb]
            simp [step, addToCacheWithTTL, forwardRequest]

/-- The six orders in which a pool of three can be traversed. -/
theorem shuffled_three (rnd : Rand) (a b c : String) :
    (shuffleURLs rnd [a, b, c]).shuffled ∈
      [[a, b, c], [a, c, b], [b, a, c], [b, c, a], [c, a, b], [c, b, a]] := by
  have h2 : rnd 2 % 3 = 0 ∨ rnd 2 % 3 = 1 ∨ rnd 2 % 3 = 2 := by omega
  have h1 : rnd 1 % 2 = 0 ∨ rnd 1 % 2 = 1 := by omega
  rcases h2 with h2 | h2 | h2 <;> rcases h1 with h1 | h1 <;>
    simp [shuffleURLs, randShuffle, randShuffleFrom, swap, h1, h2]

/-- The loop reads nothing of the configuration but the TTL. -/
theorem forwardLoop_cfg (net : Network) (l : List String) (s : State) (c : Config)
    (h : c.cacheTTL = s.cfg.cacheTTL) :
    forwardLoop net l { s with cfg := c } =
      ((forwardLoop net l s).1, { (forwardLoop net l s).2 with cfg := c }) := by
  induction l generalizing s with
  | nil => rfl
  | cons url rest ih =>
    rw [forwardLoop_cons, forwardLoop_cons]
    have e1 : excluded { s with cfg := c } url = excluded s url := rfl
    have e2 : ({ s with cfg := c } : State).forwarded = s.forwarded := rfl
    rw [e1, e2]
    by_cases hx : excluded s url = true
    · rw [if_pos hx, if_pos hx]
      exact ih (step s (.lookup url)) h
    · rw [if_neg hx, if_neg hx]
      by_cases hu : (net s.forwarded url).usable = true
      · rw [if_pos hu, if_pos hu]
        rfl
      · rw [if_neg hu, if_neg hu]
        have e3 : step (forwardRequest net url { s with cfg := c }).2 (.add url)
            = { step (forwardRequest net url s).2 (.add url) with cfg := c } := by
          simp [step, addToCacheWithTTL, forwardRequest, h]
        rw [e3]
        exact ih (step (forwardRequest net url s).2 (.add url)) h

/-- The scenario of the pool `A`, `B`, `C`, for each of the six traversal orders. -/
theorem scenarioABC_orders :
    ∀ order ∈ [["A", "B", "C"], ["A", "C", "B"], ["B", "A", "C"], ["B", "C", "A"],
        ["C", "A", "B"], ["C", "B", "A"]],
      (forwardLoop scenarioABC order (freshServer ["A", "B", "C"] [])).1 = true ∧
      (forwardLoop scenarioABC order (freshServer ["A", "B", "C"] [])).2.written
        = [⟨200, "ok"⟩] ∧
      (forwardLoop scenarioABC order (freshServer ["A", "B", "C"] [])).2.slack = [] ∧
      excluded (forwardLoop scenarioABC order (freshServer ["A", "B", "C"] [])).2 "C" = false ∧
      (excluded (forwardLoop scenarioABC order (freshServer ["A", "B", "C"] [])).2 "A" = true ↔
        order.indexOf "A" < order.indexOf "C") ∧
      (excluded (forwardLoop scenarioABC order (freshServer ["A", "B", "C"] [])).2 "B" = true ↔
        order.indexOf "B" < order.indexOf "C") := by
  decide

/-! ## Timers and traces -/

theorem holds_of_removals {ts : List (Int × String)} {c : TwoQueue} {u : String}
    (h : (ts.foldl (fun c t => c.Remove t.2) c).holds u) : c.holds u := by
  induction ts generalizing c with
  | nil => exact h
  | cons t ts ih => exact TwoQueue.holds_of_Remove (ih h)

theorem WF_removals (ts : List (Int × String)) {c : TwoQueue} (hc : c.WF) :
    (ts.foldl (fun c t => c.Remove t.2) c).WF := by
  induction ts generalizing c with
  | nil => exact hc
  | cons t ts ih => exact ih (TwoQueue.WF_Remove hc _)

theorem not_holds_removals {ts : List (Int × String)} {c : TwoQueue} {u : String}
    (hc : c.WF) (h : ∃ t ∈ ts, t.2 = u) :
    ¬ (ts.foldl (fun c t => c.Remove t.2) c).holds u := by
  induction ts generalizing c with
  | nil => simp at h
  | cons t ts ih =>
    by_cases e : t.2 = u
    · subst e
      exact fun hh => TwoQueue.not_holds_Remove hc t.2 (holds_of_removals hh)
    · obtain ⟨t', ht', hu⟩ := h
      rcases List.mem_cons.mp ht' with rfl | ht'
      · exact absurd hu e
      · exact ih (TwoQueue.WF_Remove hc _) ⟨t', ht', hu⟩

theorem holds_removals_of_ne {ts : List (Int × String)} {c : TwoQueue} {u : String}
    (h : c.holds u) (hne : ∀ t ∈ ts, t.2 ≠ u) :
    (ts.foldl (fun c t => c.Remove t.2) c).holds u := by
  induction ts generalizing c with
  | nil => exact h
  | cons t ts ih =>
    exact ih (TwoQueue.holds_Remove_of_ne h (fun e => hne t (List.mem_cons_self _ _) e.symm))
      (fun t' ht' => hne t' (List.mem_cons_of_mem _ ht'))

theorem step_WF {s : State} (hc : s.cache.WF) (e : Event) : (step s e).cache.WF := by
  cases e with
  | add u => exact TwoQueue.WF_Set hc u
  | lookup u => exact TwoQueue.WF_Get hc u
  | wait dt => exact WF_removals _ hc

theorem run_cons (e : Event) (es : List Event) (s : State) :
    run (e :: es) s = run es (step s e) := rfl

theorem step_cfg (s : State) (e : Event) : (step s e).cfg = s.cfg := by
  cases e <;> rfl

theorem step_now (s : State) (e : Event) : (step s e).now = s.now + (duration [e] : Nat) := by
  cases e <;> simp [step, duration, addToCacheWithTTL, elapse]

theorem duration_cons (e : Event) (es : List Event) :
    duration (e :: es) = duration [e] + duration es := by
  cases e <;> simp [duration]

theorem run_frame (es : List Event) (s : State) :
    (run es s).cfg = s.cfg ∧ (run es s).now = s.now + (duration es : Nat) ∧
    (s.cache.WF → (run es s).cache.WF) := by
  induction es generalizing s with
  | nil => simp [run, duration]
  | cons e es ih =>
    obtain ⟨h1, h2, h3⟩ := ih (step s e)
    rw [run_cons]
    refine ⟨h1.trans (step_cfg s e), ?_, fun hc => h3 (step_WF hc e)⟩
    rw [h2, step_now, duration_cons e es]
    push_cast
    ring

/-- A removal of `u` is pending with deadline `D`, which has not been reached. -/
theorem pending_step {s : State} {u : String} {D : Int} (e : Event)
    (hp : (D, u) ∈ s.timers) (hlt : s.now + (duration [e] : Nat) < D) :
    (D, u) ∈ (step s e).timers := by
  cases e with
  | add v => exact List.mem_append_left _ hp
  | lookup v => exact hp
  | wait dt =>
    refine List.mem_filter.mpr ⟨hp, ?_⟩
    have : ¬ D ≤ s.now + (dt : Int) := by
      simp only [duration] at hlt
      push_cast at hlt
      omega
    simpa using this

theorem pending_run {s : State} {u : String} {D : Int} (es : List Event)
    (hp : (D, u) ∈ s.timers) (hlt : s.now + (duration es : Nat) < D) :
    (D, u) ∈ (run es s).timers := by
  induction es generalizing s with
  | nil => exact hp
  | cons e es ih =>
    rw [duration_cons] at hlt
    push_cast at hlt
    rw [run_cons]
    refine ih (pending_step e hp (by omega)) ?_
    rw [step_now]
    omega

/-- Once the deadline `D` of a pending removal of `u` has passed, and as long as
`u` is not admitted again, `u` is not held. -/
theorem expired_step {s : State} {u : String} {D : Int} (e : Event) (hc : s.cache.WF)
    (hinv : (s.now < D ∧ (D, u) ∈ s.timers) ∨ ¬ s.cache.holds u)
    (hno : e ≠ .add u) :
    ((step s e).now < D ∧ (D, u) ∈ (step s e).timers) ∨ ¬ (step s e).cache.holds u := by
  cases e with
  | add v =>
    rcases hinv with ⟨h1, h2⟩ | h
    · exact Or.inl ⟨h1, List.mem_append_left _ h2⟩
    · refine Or.inr (fun hh => ?_)
      rcases TwoQueue.holds_Set_sub hh with rfl | hh
      · exact hno rfl
      · exact h hh
  | lookup v =>
    rcases hinv with h | h
    · exact Or.inl h
    · exact Or.inr (fun hh => h (TwoQueue.holds_of_Get hh))
  | wait dt =>
    by_cases hlt : s.now + (dt : Int) < D
    · rcases hinv with ⟨h1, h2⟩ | h
      · refine Or.inl ⟨hlt, List.mem_filter.mpr ⟨h2, ?_⟩⟩
        have : ¬ D ≤ s.now + (dt : Int) := by omega
        simpa using this
      · exact Or.inr (fun hh => h (holds_of_removals hh))
    · refine Or.inr ?_
      rcases hinv with ⟨h1, h2⟩ | h
      · refine not_holds_removals hc ⟨(D, u), List.mem_filter.mpr ⟨h2, ?_⟩, rfl⟩
        have : D ≤ s.now + (dt : Int) := by omega
        simpa using this
      · exact fun hh => h (holds_of_removals hh)

theorem expired_run {s : State} {u : String} {D : Int} (es : List Event) (hc : s.cache.WF)
    (hinv : (s.now < D ∧ (D, u) ∈ s.timers) ∨ ¬ s.cache.holds u)
    (hno : ∀ e ∈ es, e ≠ .add u) :
    ((run es s).now < D ∧ (D, u) ∈ (run es s).timers) ∨ ¬ (run es s).cache.holds u := by
  induction es generalizing s with
  | nil => exact hinv
  | cons e es ih =>
    rw [run_cons]
    exact ih (step_WF hc e) (expired_step e hc hinv (hno e (List.mem_cons_self _ _)))
      (fun e' he' => hno e' (List.mem_cons_of_mem _ he'))

/-- While the deadline `D` has not been reached, no removal of `u` falls due before
`D` and no admission pushes a key out, `u` stays held. -/
theorem retained_step {s : State} {u : String} {D : Int} (e : Event) (hc : s.cache.WF)
    (hh : s.cache.holds u) (hlow : D ≤ s.now + s.cfg.cacheTTL)
    (htim : ∀ t ∈ s.timers, t.2 = u → D ≤ t.1)
    (hroom : noEviction [e] s = true) (hlt : s.now + (duration [e] : Nat) < D) :
    (step s e).cache.holds u ∧ (∀ t ∈ (step s e).timers, t.2 = u → D ≤ t.1) := by
  cases e with
  | add v =>
    have hr : s.cache.hasRoomFor v = true := by simpa [noEviction] using hroom
    refine ⟨TwoQueue.holds_Set_of_holds hc (Or.inl hh) hr, fun t ht hu => ?_⟩
    rcases List.mem_append.mp ht with ht | ht
    · exact htim t ht hu
    · have : t = (s.now + s.cfg.cacheTTL, v) := by simpa using ht
      rw [this]
      exact hlow
  | lookup v => exact ⟨TwoQueue.holds_Get_of_holds hc v hh, htim⟩
  | wait dt =>
    have hlt' : s.now + (dt : Int) < D := by
      simp only [duration] at hlt
      push_cast at hlt
      omega
    refine ⟨holds_removals_of_ne hh (fun t ht hu => ?_), fun t ht hu =>
      htim t (List.mem_filter.mp ht).1 hu⟩
    obtain ⟨h1, h2⟩ := List.mem_filter.mp ht
    have h3 : t.1 ≤ s.now + (dt : Int) := by simpa using h2
    have := htim t h1 hu
    omega

theorem noEviction_cons (e : Event) (es : List Event) (s : State) :
    noEviction (e :: es) s = (noEviction [e] s && noEviction es (step s e)) := by
  cases e <;> simp [noEviction]

theorem retained_run {s : State} {u : String} {D : Int} (es : List Event) (hc : s.cache.WF)
    (hh : s.cache.holds u) (hlow : D ≤ s.now + s.cfg.cacheTTL)
    (htim : ∀ t ∈ s.timers, t.2 = u → D ≤ t.1)
    (hroom : noEviction es s = true) (hlt : s.now + (duration es : Nat) < D) :
    (run es s).cache.holds u := by
  induction es generalizing s with
  | nil => exact hh
  | cons e es ih =>
    rw [noEviction_cons, Bool.and_eq_true] at hroom
    rw [duration_cons] at hlt
    push_cast at hlt
    have hnow := step_now s e
    obtain ⟨h1, h2⟩ := retained_step e hc hh hlow htim hroom.1 (by omega)
    rw [run_cons]
    refine ih (step_WF hc e) h1 ?_ h2 hroom.2 (by omega)
    rw [step_cfg, hnow]
    omega

theorem ensureSpace_Len_le (c : TwoQueue) (b : Bool) :
    (c.ensureSpace b).Len ≤ c.Len ∧ (c.ensureSpace b).size = c.size := by
  unfold TwoQueue.ensureSpace LRU.RemoveOldest
  simp only []
  have h1 := List.length_dropLast c.recent.keys
  have h2 := List.length_dropLast c.frequent.keys
  split
  · exact ⟨le_rfl, rfl⟩
  · split
    · cases c.recent.keys.getLast? <;> refine ⟨?_, rfl⟩ <;>
        simp only [TwoQueue.Len, LRU.Len] <;> omega
    · refine ⟨?_, rfl⟩
      simp only [TwoQueue.Len, LRU.Len]
      omega

theorem Get_Len_le (c : TwoQueue) (k : String) :
    (c.Get k).2.Len ≤ c.Len ∧ (c.Get k).2.size = c.size := by
  unfold TwoQueue.Get LRU.Get LRU.Peek LRU.Remove
  by_cases hf : k ∈ c.frequent.keys
  · simp only [hf, if_true]
    have := TwoQueue.filter_ne_length_lt hf
    refine ⟨?_, trivial⟩
    simp only [TwoQueue.Len, LRU.Len, List.length_cons]
    omega
  · by_cases hr : k ∈ c.recent.keys
    · simp only [hf, hr, if_false, if_true, decide_True]
      have := TwoQueue.filter_ne_length_lt hr
      have hs := TwoQueue.LRU_Set_len_le c.frequent k
      refine ⟨?_, trivial⟩
      simp only [TwoQueue.Len, LRU.Len] at *
      omega
    · simp only [hf, hr, if_false, decide_False]
      exact ⟨le_rfl, rfl⟩

theorem Set_Len_le (c : TwoQueue) (k : String) :
    (c.Set k).Len ≤ c.Len + 1 ∧ (c.Set k).size = c.size := by
  unfold TwoQueue.Set LRU.Peek LRU.Remove
  have hs := TwoQueue.LRU_Set_len_le c.frequent k
  have hfl := List.length_filter_le (fun x => decide (x ≠ k)) c.recent.keys
  by_cases hf : k ∈ c.frequent.keys
  · simp only [hf, decide_True, if_true]
    refine ⟨?_, trivial⟩
    simp only [TwoQueue.Len, LRU.Len] at *
    omega
  · by_cases hr : k ∈ c.recent.keys
    · simp only [hf, hr, decide_True, decide_False, if_true, if_false, Bool.false_eq_true]
      have := TwoQueue.filter_ne_length_lt hr
      refine ⟨?_, trivial⟩
      simp only [TwoQueue.Len, LRU.Len] at *
      omega
    · simp only [hf, hr, decide_False, if_false, Bool.false_eq_true]
      split
      · have h1 := ensureSpace_Len_le c true
        have h2 := TwoQueue.LRU_Set_len_le (c.ensureSpace true).frequent k
        refine ⟨?_, h1.2⟩
        simp only [TwoQueue.Len, LRU.Len] at *
        omega
      · have h1 := ensureSpace_Len_le c false
        have h2 := TwoQueue.LRU_Set_len_le (c.ensureSpace false).recent k
        refine ⟨?_, h1.2⟩
        simp only [TwoQueue.Len, LRU.Len] at *
        omega

/-- A traversal never forwards to a held candidate, when the cache has room for
every candidate of the traversal. -/
theorem forwardLoop_skips (net : Network) (l : List String) (s : State) (u : String)
    (hc : s.cache.WF) (hh : s.cache.holds u) (hroom : s.cache.Len + l.length ≤ s.cache.size) :
    ∃ a, (forwardLoop net l s).2.forwarded = s.forwarded ++ a ∧ u ∉ a := by
  induction l generalizing s with
  | nil => exact ⟨[], by simp [forwardLoop], by simp⟩
  | cons url rest ih =>
    rw [forwardLoop_cons]
    simp only [List.length_cons] at hroom
    by_cases hx : excluded s url = true
    · rw [if_pos hx]
      have hl := Get_Len_le s.cache url
      exact ih (step s (.lookup url)) (TwoQueue.WF_Get hc url)
        (TwoQueue.holds_Get_of_holds hc url hh) (by
          show (s.cache.Get url).2.Len + rest.length ≤ (s.cache.Get url).2.size
          omega)
    · rw [if_neg hx]
      have hne : u ≠ url := fun e => hx (e ▸ (excluded_iff s u).mpr hh)
      by_cases hu : (net s.forwarded url).usable = true
      · rw [if_pos hu]
        exact ⟨[url], rfl, by simpa using hne⟩
      · rw [if_neg hu]
        have hl := Set_Len_le s.cache url
        have hr : s.cache.hasRoomFor url = true := by
          unfold TwoQueue.hasRoomFor
          rw [Bool.or_eq_true]
          exact Or.inr (decide_eq_true (by omega))
        obtain ⟨a, h1, h2⟩ := ih (step (forwardRequest net url s).2 (.add url))
          (TwoQueue.WF_Set hc url) (TwoQueue.holds_Set_of_holds hc (Or.inl hh) hr) (by
            show (s.cache.Set url).Len + rest.length ≤ (s.cache.Set url).size
            omega)
        refine ⟨url :: a, ?_, by simp [hne, h2]⟩
        rw [h1]
        simp [step, addToCacheWithTTL, forwardRequest]

/-- What a traversal does to the cache, the pending removals and the clock is what
a sequence of lookups and admissions of its candidates does: the traces of
`run` cover the handling of requests. -/
theorem forwardLoop_trace (net : Network) (l : List String) (s t : State)
    (h : s.cfg = t.cfg ∧ s.cache = t.cache ∧ s.timers = t.timers ∧ s.now = t.now) :
    ∃ es, (∀ e ∈ es, ∃ v ∈ l, e = .lookup v ∨ e = .add v) ∧
      (forwardLoop net l s).2.cfg = (run es t).cfg ∧
      (forwardLoop net l s).2.cache = (run es t).cache ∧
      (forwardLoop net l s).2.timers = (run es t).timers ∧
      (forwardLoop net l s).2.now = (run es t).now := by
  induction l generalizing s t with
  | nil => exact ⟨[], by simp, h⟩
  | cons url rest ih =>
    obtain ⟨h1, h2, h3, h4⟩ := h
    rw [forwardLoop_cons]
    by_cases hx : excluded s url = true
    · rw [if_pos hx]
      obtain ⟨es, he, r⟩ := ih (step s (.lookup url)) (step t (.lookup url))
        ⟨h1, by simp [step, h2], h3, h4⟩
      refine ⟨.lookup url :: es, fun e hm => ?_, r⟩
      rcases List.mem_cons.mp hm with rfl | hm
      · exact ⟨url, List.mem_cons_self _ _, Or.inl rfl⟩
      · obtain ⟨v, hv, r'⟩ := he e hm
        exact ⟨v, List.mem_cons_of_mem _ hv, r'⟩
    · rw [if_neg hx]
      by_cases hu : (net s.forwarded url).usable = true
      · rw [if_pos hu]
        exact ⟨[], by simp, h1, h2, h3, h4⟩
      · rw [if_neg hu]
        obtain ⟨es, he, r⟩ := ih (step (forwardRequest net url s).2 (.add url))
          (step t (.add url))
          ⟨h1, by simp [step, addToCacheWithTTL, forwardRequest, h2],
            by simp [step, addToCacheWithTTL, forwardRequest, h1, h3, h4], h4⟩
        refine ⟨.add url :: es, fun e hm => ?_, r⟩
        rcases List.mem_cons.mp hm with rfl | hm
        · exact ⟨url, List.mem_cons_self _ _, Or.inr rfl⟩
        · obtain ⟨v, hv, r'⟩ := he e hm
          exact ⟨v, List.mem_cons_of_mem _ hv, r'⟩

/-- A traversal of a list in two parts: the second part runs only if the first
returned `false`, from the state the first part left. -/
theorem forwardLoop_append (net : Network) (l₁ l₂ : List String) (s : State) :
    forwardLoop net (l₁ ++ l₂) s =
      if (forwardLoop net l₁ s).1 = true then forwardLoop net l₁ s
      else forwardLoop net l₂ (forwardLoop net l₁ s).2 := by
  induction l₁ generalizing s with
  | nil => simp [forwardLoop]
  | cons url rest ih =>
    rw [List.cons_append, forwardLoop_cons, forwardLoop_cons]
    by_cases hx : excluded s url = true
    · simp only [if_pos hx]
      exact ih _
    · simp only [if_neg hx]
      by_cases hu : (net s.forwarded url).usable = true
      · simp only [if_pos hu, if_true]
      · simp only [if_neg hu]
        exact ih _

theorem forwardLoop_WF (net : Network) (l : List String) (s : State) (hc : s.cache.WF) :
    (forwardLoop net l s).2.cache.WF := by
  obtain ⟨es, -, -, h, -⟩ := forwardLoop_trace net l s s ⟨rfl, rfl, rfl, rfl⟩
  rw [h]
  exact (run_frame es s).2.2 hc

/-- A held key stays held through a traversal for whose candidates the cache has
room. -/
theorem forwardLoop_retains (net : Network) (l : List String) (s : State) (u : String)
    (hc : s.cache.WF) (hh : s.cache.holds u) (hroom : s.cache.Len + l.length ≤ s.cache.size) :
    (forwardLoop net l s).2.cache.holds u := by
  induction l generalizing s with
  | nil => exact hh
  | cons url rest ih =>
    rw [forwardLoop_cons]
    simp only [List.length_cons] at hroom
    by_cases hx : excluded s url = true
    · rw [if_pos hx]
      have hl := Get_Len_le s.cache url
      exact ih (step s (.lookup url)) (TwoQueue.WF_Get hc url)
        (TwoQueue.holds_Get_of_holds hc url hh) (by
          show (s.cache.Get url).2.Len + rest.length ≤ (s.cache.Get url).2.size
          omega)
    · rw [if_neg hx]
      by_cases hu : (net s.forwarded url).usable = true
      · rw [if_pos hu]
        exact hh
      · rw [if_neg hu]
        have hl := Set_Len_le s.cache url
        have hr : s.cache.hasRoomFor url = true := by
          unfold TwoQueue.hasRoomFor
          rw [Bool.or_eq_true]
          exact Or.inr (decide_eq_true (by omega))
        exact ih (step (forwardRequest net url s).2 (.add url))
          (TwoQueue.WF_Set hc url) (TwoQueue.holds_Set_of_holds hc (Or.inl hh) hr) (by
            show (s.cache.Set url).Len + rest.length ≤ (s.cache.Set url).size
            omega)

/-- With room in the cache for every candidate, a traversal attempts no endpoint
twice, and every endpoint whose attempt failed is held when the traversal ends. -/
theorem forwardLoop_room (net : Network) (l : List String) (s : State)
    (hc : s.cache.WF) (hroom : s.cache.Len + l.length ≤ s.cache.size) :
    ∃ a, (forwardLoop net l s).2.forwarded = s.forwarded ++ a ∧ a.Nodup ∧
      ∀ x ∈ (if (forwardLoop net l s).1 = true then a.dropLast else a),
        (forwardLoop net l s).2.cache.holds x := by
  induction l generalizing s with
  | nil => exact ⟨[], by simp [forwardLoop], List.nodup_nil, by simp [forwardLoop]⟩
  | cons url rest ih =>
    rw [forwardLoop_cons]
    simp only [List.length_cons] at hroom
    by_cases hx : excluded s url = true
    · rw [if_pos hx]
      have hl := Get_Len_le s.cache url
      exact ih (step s (.lookup url)) (TwoQueue.WF_Get hc url) (by
        show (s.cache.Get url).2.Len + rest.length ≤ (s.cache.Get url).2.size
        omega)
    · rw [if_neg hx]
      by_cases hu : (net s.forwarded url).usable = true
      · rw [if_pos hu]
        exact ⟨[url], rfl, List.nodup_singleton _, by simp⟩
      · rw [if_neg hu]
        have hl := Set_Len_le s.cache url
        have hc₁ : (step (forwardRequest net url s).2 (.add url)).cache.WF :=
          TwoQueue.WF_Set hc url
        have hh₁ : (step (forwardRequest net url s).2 (.add url)).cache.holds url :=
          TwoQueue.holds_Set_self hc url
        have hr₁ : (step (forwardRequest net url s).2 (.add url)).cache.Len + rest.length
            ≤ (step (forwardRequest net url s).2 (.add url)).cache.size := by
          show (s.cache.Set url).Len + rest.length ≤ (s.cache.Set url).size
          omega
        obtain ⟨a, h1, h2, h3⟩ := ih _ hc₁ hr₁
        obtain ⟨a', h1', h2'⟩ := forwardLoop_skips net rest _ url hc₁ hh₁ hr₁
        have ea : a' = a := List.append_cancel_left (h1'.symm.trans h1)
        subst ea
        refine ⟨url :: a', ?_, List.nodup_cons.mpr ⟨h2', h2⟩, fun x hx' => ?_⟩
        · rw [h1]
          simp [step, addToCacheWithTTL, forwardRequest]
        · by_cases hb : (forwardLoop net rest
              (step (forwardRequest net url s).2 (.add url))).1 = true
          · simp only [hb, if_true] at hx' h3
            have hne : a' ≠ [] := by
              intro ha
              obtain ⟨b, v, -, hf, -⟩ := forwardLoop_true net rest _ hb
              rw [h1, ha] at hf
              have := congrArg List.length hf
              simp at this
            rw [List.dropLast_cons_of_ne_nil hne] at hx'
            rcases List.mem_cons.mp hx' with rfl | hx'
            · exact forwardLoop_retains net rest _ _ hc₁ hh₁ hr₁
            · exact h3 x hx'
          · simp only [hb] at hx' h3
            rcases List.mem_cons.mp hx' with rfl | hx'
            · exact forwardLoop_retains net rest _ _ hc₁ hh₁ hr₁
            · exact h3 x hx'

/-- What happens at a position the traversal reaches with a candidate that is
not excluded and whose attempt fails: the candidate is stored in the cache and its
removal is scheduled with the configured TTL. -/
theorem reach_succ_failed (net : Network) (l : List String) (s : State) (j : Nat)
    (u : String) (hu : l[j]? = some u) (hr : (reach net l s j).1 = false)
    (hx : excluded (reach net l s j).2 u = false)
    (hf : (net (reach net l s j).2.forwarded u).usable = false) :
    reach net l s (j + 1) =
      (false, addToCacheWithTTL u s.cfg.cacheTTL (forwardRequest net u (reach net l s j).2).2) := by
  have hcfg : (reach net l s j).2.cfg = s.cfg := (forwardLoop_frame net (l.take j) s).1
  unfold reach at *
  rw [List.take_succ, hu, Option.toList_some, forwardLoop_append, if_neg (by simp [hr]),
    forwardLoop_cons, if_neg (by simp [hx]), if_neg (by simp [hf])]
  simp [forwardLoop, step, forwardRequest, hcfg]

/-! ## Claims -/

/-- C1: under any assignment of outcomes to endpoints and with no endpoint of the
pool excluded at the start, `tryForwardRequests` returns `true` exactly when some
endpoint of the pool has a usable outcome (a response whose status is not 429);
it then makes exactly one forward attempt with a usable outcome, to an endpoint of
the pool, as its last attempt, and writes the reply relayed from it; otherwise it
makes no such attempt, writes nothing and returns `false`. -/
theorem tryForwardRequests_usable (outcome : String → Outcome) (rnd : Rand)
    (urls : List String) (s : State) (h : ∀ u ∈ urls, excluded s u = false) :
    ∃ a, (tryForwardRequests (fun _ => outcome) rnd urls s).2.forwarded = s.forwarded ++ a ∧
      ((tryForwardRequests (fun _ => outcome) rnd urls s).1 = true ↔
        ∃ u ∈ urls, (outcome u).usable = true) ∧
      ((tryForwardRequests (fun _ => outcome) rnd urls s).1 = true →
        ∃ u ∈ urls, (outcome u).usable = true ∧
          a.filter (fun x => (outcome x).usable) = [u] ∧ a.getLast? = some u ∧
          (tryForwardRequests (fun _ => outcome) rnd urls s).2.written
            = s.written ++ [(outcome u).relayed]) ∧
      ((tryForwardRequests (fun _ => outcome) rnd urls s).1 = false →
        a.filter (fun x => (outcome x).usable) = [] ∧
          (tryForwardRequests (fun _ => outcome) rnd urls s).2.written = s.written) := by
  have hp := shuffled_perm rnd urls
  obtain ⟨a, h1, h2, h3, h4⟩ := forwardLoop_assignment outcome (shuffleURLs rnd urls).shuffled s
    (fun u hu hh => by
      have := h u (hp.mem_iff.mp hu)
      rw [excluded_false_iff] at this
      exact absurd hh this)
  refine ⟨a, h1, ?_, ?_, h4⟩
  · show (forwardLoop _ _ s).1 = true ↔ _
    rw [h2]
    exact ⟨fun ⟨u, hu, r⟩ => ⟨u, hp.mem_iff.mp hu, r⟩, fun ⟨u, hu, r⟩ => ⟨u, hp.mem_iff.mpr hu, r⟩⟩
  · intro ht
    obtain ⟨u, hu, r⟩ := h3 ht
    exact ⟨u, hp.mem_iff.mp hu, r⟩

/-- C1, witness: pool `A`, `B`, `C` on a freshly started server, where only `C`
answers with a status other than 429. -/
theorem tryForwardRequests_usable_witness :
    (tryForwardRequests
      (fun _ u => if u = "C" then .response 200 (some "ok") else .response 429 (some ""))
      rndKeep ["A", "B", "C"] (freshServer ["A", "B", "C"] ["F"])).1 = true := by
  obtain ⟨a, -, h, -⟩ := tryForwardRequests_usable
    (fun u => if u = "C" then .response 200 (some "ok") else .response 429 (some ""))
    rndKeep ["A", "B", "C"] (freshServer ["A", "B", "C"] ["F"]) (by decide)
  exact h.mpr ⟨"C", by decide, by decide⟩

/-- C2, counterexample: an endpoint answers 200 with a body that cannot be read;
the primary pass is not exhausted, yet the caller gets status 500, which is the
status of no endpoint. -/
theorem loadBalancer_reply_counterexample :
    (tryForwardRequests allUnreadable rndKeep ["A"] (freshServer ["A"] ["F"])).1 = true ∧
    (loadBalancer allUnreadable rndKeep rndKeep (freshServer ["A"] ["F"])).written
      = [⟨500, "Failed to read response body\n"⟩] ∧
    (loadBalancer allUnreadable rndKeep rndKeep (freshServer ["A"] ["F"])).forwarded = ["A"] ∧
    allUnreadable [] "A" = .response 200 none := by
  decide

/-- C2, amended: `loadBalancer` writes exactly one reply.  It is the status and
body of the last attempted endpoint, whose status is not 429; or, when the body of
that endpoint cannot be read, status 500 with the text "Failed to read response
body"; or, when both passes returned `false`, status 500 with the text "All RPCs
are reaching their ratelimits.". -/
theorem loadBalancer_reply (net : Network) (rnd₁ rnd₂ : Rand) (s : State) :
    ∃ reply, (loadBalancer net rnd₁ rnd₂ s).written = s.written ++ [reply] ∧
      ((∃ hist url status body,
          (loadBalancer net rnd₁ rnd₂ s).forwarded = hist ++ [url] ∧
          (url ∈ s.cfg.RPCs ∨ url ∈ s.cfg.FallbackRPC) ∧
          net hist url = .response status (some body) ∧ status ≠ 429 ∧
          reply = ⟨status, body⟩) ∨
       (∃ hist url status,
          (loadBalancer net rnd₁ rnd₂ s).forwarded = hist ++ [url] ∧
          (url ∈ s.cfg.RPCs ∨ url ∈ s.cfg.FallbackRPC) ∧
          net hist url = .response status none ∧ status ≠ 429 ∧
          reply = ⟨500, "Failed to read response body\n"⟩) ∨
       ((tryForwardRequests net rnd₁ s.cfg.RPCs s).1 = false ∧
        (tryForwardRequests net rnd₂ s.cfg.FallbackRPC (sendNotificationToSlack
          warningMessage (tryForwardRequests net rnd₁ s.cfg.RPCs s).2)).1 = false ∧
        reply = ⟨500, "All RPCs are reaching their ratelimits.\n"⟩)) := by
  have key : ∀ (h : List String) (u : String) (r : Reply),
      (net h u).usable = true → r = (net h u).relayed →
      (∃ status body, net h u = .response status (some body) ∧ status ≠ 429 ∧
        r = ⟨status, body⟩) ∨
      (∃ status, net h u = .response status none ∧ status ≠ 429 ∧
        r = ⟨500, "Failed to read response body\n"⟩) := by
    intro h u r hu hr
    cases ho : net h u with
    | transportError => rw [ho] at hu; simp [Outcome.usable] at hu
    | response status body =>
      rw [ho] at hu hr
      have hs : status ≠ 429 := by simpa [Outcome.usable, StatusTooManyRequests] using hu
      cases body with
      | none => exact Or.inr ⟨status, rfl, hs, hr⟩
      | some b => exact Or.inl ⟨status, b, rfl, hs, hr⟩
  have mem₁ : ∀ u, u ∈ (shuffleURLs rnd₁ s.cfg.RPCs).shuffled → u ∈ s.cfg.RPCs :=
    fun u hu => (shuffled_perm rnd₁ _).mem_iff.mp hu
  have mem₂ : ∀ u, u ∈ (shuffleURLs rnd₂ s.cfg.FallbackRPC).shuffled → u ∈ s.cfg.FallbackRPC :=
    fun u hu => (shuffled_perm rnd₂ _).mem_iff.mp hu
  rw [loadBalancer_eq]
  by_cases h1 : (tryForwardRequests net rnd₁ s.cfg.RPCs s).1 = true
  · rw [if_pos h1]
    obtain ⟨a, u, hu, hf, hus, hw, -⟩ := forwardLoop_true net _ s h1
    generalize s.forwarded ++ a = hist at hf hus hw
    refine ⟨(net hist u).relayed, hw, ?_⟩
    rcases key hist u _ hus rfl with ⟨st, b, e1, e2, e3⟩ | ⟨st, e1, e2, e3⟩
    · exact Or.inl ⟨hist, u, st, b, hf, Or.inl (mem₁ u hu), e1, e2, e3⟩
    · exact Or.inr (Or.inl ⟨hist, u, st, hf, Or.inl (mem₁ u hu), e1, e2, e3⟩)
  · rw [if_neg h1]
    have h1' : (tryForwardRequests net rnd₁ s.cfg.RPCs s).1 = false := by simpa using h1
    have hpw : (tryForwardRequests net rnd₁ s.cfg.RPCs s).2.written = s.written :=
      ((forwardLoop_frame net _ s).2.2.2.2 h1').1
    by_cases h2 : (tryForwardRequests net rnd₂ s.cfg.FallbackRPC (sendNotificationToSlack
          warningMessage (tryForwardRequests net rnd₁ s.cfg.RPCs s).2)).1 = true
    · rw [if_pos h2]
      obtain ⟨a, u, hu, hf, hus, hw, -⟩ := forwardLoop_true net _ _ h2
      generalize (sendNotificationToSlack warningMessage
        (tryForwardRequests net rnd₁ s.cfg.RPCs s).2).forwarded ++ a = hist at hf hus hw
      refine ⟨(net hist u).relayed, ?_, ?_⟩
      · rw [← hpw]; exact hw
      · rcases key hist u _ hus rfl with
          ⟨st, b, e1, e2, e3⟩ | ⟨st, e1, e2, e3⟩
        · exact Or.inl ⟨hist, u, st, b, hf, Or.inr (mem₂ u hu), e1, e2, e3⟩
        · exact Or.inr (Or.inl ⟨hist, u, st, hf, Or.inr (mem₂ u hu), e1, e2, e3⟩)
    · rw [if_neg h2]
      have h2' : (tryForwardRequests net rnd₂ s.cfg.FallbackRPC (sendNotificationToSlack
          warningMessage (tryForwardRequests net rnd₁ s.cfg.RPCs s).2)).1 = false := by
        simpa using h2
      have hfw := ((forwardLoop_frame net (shuffleURLs rnd₂ s.cfg.FallbackRPC).shuffled
        (sendNotificationToSlack warningMessage
          (tryForwardRequests net rnd₁ s.cfg.RPCs s).2)).2.2.2.2 h2').1
      refine ⟨⟨500, "All RPCs are reaching their ratelimits.\n"⟩, ?_, Or.inr (Or.inr ⟨h1', h2', rfl⟩)⟩
      show (tryForwardRequests net rnd₂ s.cfg.FallbackRPC _).2.written ++ _ = _
      rw [show (tryForwardRequests net rnd₂ s.cfg.FallbackRPC (sendNotificationToSlack
          warningMessage (tryForwardRequests net rnd₁ s.cfg.RPCs s).2)).2.written
          = s.written from hfw.trans hpw]
      rfl

/-- C3: `loadBalancer` sends no alert when the primary pass returns `true`; when
the primary pass returns `false` it sends the warning once and then makes one pass
over the fallback pool; when that pass returns `false` too it sends the fatal alert
once and answers with status 500.  The number of alerts is the number of passes
that returned `false`. -/
theorem loadBalancer_alerts (net : Network) (rnd₁ rnd₂ : Rand) (s : State) :
    let p := tryForwardRequests net rnd₁ s.cfg.RPCs s
    let f := tryForwardRequests net rnd₂ s.cfg.FallbackRPC
      (sendNotificationToSlack warningMessage p.2)
    let s' := loadBalancer net rnd₁ rnd₂ s
    (p.1 = true → s'.slack = s.slack ∧ s'.forwarded = p.2.forwarded) ∧
    (p.1 = false → f.1 = true →
      s'.slack = s.slack ++ [warningMessage] ∧ s'.forwarded = f.2.forwarded ∧
      s'.written = f.2.written) ∧
    (p.1 = false → f.1 = false →
      s'.slack = s.slack ++ [warningMessage, fatalMessage] ∧
      s'.forwarded = f.2.forwarded ∧
      s'.written = s.written ++
        [httpError "All RPCs are reaching their ratelimits." StatusInternalServerError]) ∧
    s'.slack.length = s.slack.length + (if p.1 then 0 else if f.1 then 1 else 2) := by
  intro p f s'
  have hp := forwardLoop_frame net (shuffleURLs rnd₁ s.cfg.RPCs).shuffled s
  have hf := forwardLoop_frame net (shuffleURLs rnd₂ s.cfg.FallbackRPC).shuffled
    (sendNotificationToSlack warningMessage p.2)
  have hps : p.2.slack = s.slack := hp.2.2.1
  have hfs : f.2.slack = s.slack ++ [warningMessage] := by
    have h : f.2.slack = (sendNotificationToSlack warningMessage p.2).slack := hf.2.2.1
    rw [h]
    show p.2.slack ++ [warningMessage] = _
    rw [hps]
  have hs' : s' = if p.1 = true then p.2 else if f.1 = true then f.2 else
      { sendNotificationToSlack fatalMessage f.2 with
        written := f.2.written ++
          [httpError "All RPCs are reaching their ratelimits." StatusInternalServerError] } :=
    loadBalancer_eq net rnd₁ rnd₂ s
  have hfw : p.1 = false → f.1 = false → f.2.written = s.written := by
    intro h1 h2
    have a : f.2.written = (sendNotificationToSlack warningMessage p.2).written :=
      (hf.2.2.2.2 h2).1
    have b : p.2.written = s.written := (hp.2.2.2.2 h1).1
    rw [a]; exact b
  refine ⟨fun h => ?_, fun h1 h2 => ?_, fun h1 h2 => ?_, ?_⟩
  · rw [hs', if_pos h]; exact ⟨hps, rfl⟩
  · rw [hs', if_neg (by simp [h1]), if_pos h2]; exact ⟨hfs, rfl, rfl⟩
  · rw [hs', if_neg (by simp [h1]), if_neg (by simp [h2])]
    refine ⟨?_, rfl, ?_⟩
    · simp [sendNotificationToSlack, hfs]
    · simp [sendNotificationToSlack, hfw h1 h2]
  · rw [hs']
    by_cases h1 : p.1 = true
    · simp [h1, hps]
    · by_cases h2 : f.1 = true
      · simp [h1, h2, hfs]
      · simp [h1, h2, hfs, sendNotificationToSlack]

/-- C4, counterexample: (1) `A` is admitted at time 0 and again after 30 s, with a
TTL of 60 s; the removal scheduled by the first admission runs at 60 s, so at 70 s,
before 30 s + 60 s, `A` is not excluded.  (2) Eleven endpoints are admitted at
time 0 to the cache of capacity 10; no time has passed, yet `e1` is not
excluded. -/
theorem excluded_until_expiry_counterexample :
    (freshServer [] []).cfg.cacheTTL = 60000000000 ∧
    (run [.add "A", .wait 30000000000] (freshServer [] [])).now = 30000000000 ∧
    (run [.add "A", .wait 30000000000, .add "A", .wait 40000000000]
      (freshServer [] [])).now = 70000000000 ∧
    excluded (run [.add "A", .wait 30000000000, .add "A", .wait 40000000000]
      (freshServer [] [])) "A" = false ∧
    (run (elevenEndpoints.map Event.add) (freshServer [] [])).now = 0 ∧
    excluded (run (elevenEndpoints.map Event.add) (freshServer [] [])) "e1" = false := by
  decide

/-- C4, amended: an endpoint is admitted by `addToCacheWithTTL` at time `t` with
the configured TTL `d`, in a consistent cache, and a sequence `es` of admissions,
lookups and waits follows.  If no removal of the endpoint scheduled by an earlier
admission falls due before `t + d`, no admission in `es` pushes a key out of the
bounded cache, and less than `d` has passed, then the endpoint is excluded, and a
traversal for whose candidates the cache has room makes no forward attempt to it.
If `d > 0`, the endpoint is not admitted again in `es`, and `d` or more has
passed, then the endpoint is not excluded, and a traversal that reaches it makes a
forward attempt to it. -/
theorem excluded_until_expiry (s : State) (u : String) (es : List Event)
    (hwf : s.cache.WF) :
    ((∀ t ∈ s.timers, t.2 = u → s.now + s.cfg.cacheTTL ≤ t.1) →
      noEviction es (step s (.add u)) = true →
      (duration es : Int) < s.cfg.cacheTTL →
        excluded (run es (step s (.add u))) u = true ∧
        ∀ (net : Network) (l : List String),
          (run es (step s (.add u))).cache.Len + l.length
              ≤ (run es (step s (.add u))).cache.size →
          ∃ a, (forwardLoop net l (run es (step s (.add u)))).2.forwarded
              = (run es (step s (.add u))).forwarded ++ a ∧ u ∉ a) ∧
    (0 < s.cfg.cacheTTL → (∀ e ∈ es, e ≠ .add u) →
      s.cfg.cacheTTL ≤ (duration es : Int) →
        excluded (run es (step s (.add u))) u = false ∧
        ∀ (net : Network) (rest : List String),
          ∃ a, (forwardLoop net (u :: rest) (run es (step s (.add u)))).2.forwarded
              = (run es (step s (.add u))).forwarded ++ u :: a) := by
  have hwf₁ : (step s (.add u)).cache.WF := step_WF hwf _
  have hnow : (step s (.add u)).now = s.now := rfl
  have hcfg : (step s (.add u)).cfg = s.cfg := rfl
  have hmem : (s.now + s.cfg.cacheTTL, u) ∈ (step s (.add u)).timers :=
    List.mem_append_right _ (List.mem_singleton_self _)
  obtain ⟨-, hnow', hwf'⟩ := run_frame es (step s (.add u))
  refine ⟨fun hfresh hroom hlt => ?_, fun hpos hno hge => ?_⟩
  · have hh : (run es (step s (.add u))).cache.holds u := by
      refine retained_run (D := s.now + s.cfg.cacheTTL) es hwf₁
        (TwoQueue.holds_Set_self hwf u) (by rw [hnow, hcfg]) ?_ hroom (by rw [hnow]; omega)
      intro t ht hu
      rcases List.mem_append.mp ht with ht | ht
      · exact hfresh t ht hu
      · have : t = (s.now + s.cfg.cacheTTL, u) := by simpa using ht
        rw [this]
    exact ⟨(excluded_iff _ _).mpr hh, fun net l hl =>
      forwardLoop_skips net l _ u (hwf' hwf₁) hh hl⟩
  · have hinv := expired_run (D := s.now + s.cfg.cacheTTL) es hwf₁
      (Or.inl ⟨by rw [hnow]; omega, hmem⟩) hno
    have hnh : ¬ (run es (step s (.add u))).cache.holds u := by
      rcases hinv with ⟨h1, -⟩ | h
      · rw [hnow', hnow] at h1
        omega
      · exact h
    have hx : excluded (run es (step s (.add u))) u = false :=
      (excluded_false_iff _ _).mpr hnh
    refine ⟨hx, fun net rest => ?_⟩
    rw [forwardLoop_cons, if_neg (by simp [hx])]
    by_cases hu : (net (run es (step s (.add u))).forwarded u).usable = true
    · rw [if_pos hu]
      exact ⟨[], rfl⟩
    · rw [if_neg hu]
      obtain ⟨-, -, -, ⟨a, ha, -⟩, -⟩ := forwardLoop_frame net rest
        (step (forwardRequest net u (run es (step s (.add u)))).2 (.add u))
      refine ⟨a, ?_⟩
      rw [ha]
      simp [step, addToCacheWithTTL, forwardRequest]

/-- C4, witness: on a freshly started server `A` is admitted; 30 s later it is
excluded, 60 s later it is not. -/
theorem excluded_until_expiry_witness :
    excluded (run [.wait 30000000000, .lookup "A"] (step (freshServer [] []) (.add "A")))
      "A" = true ∧
    excluded (run [.wait 60000000000] (step (freshServer [] []) (.add "A"))) "A" = false :=
  ⟨((excluded_until_expiry (freshServer [] []) "A" [.wait 30000000000, .lookup "A"]
      (TwoQueue.WF_New (by decide))).1 (by decide) (by decide) (by decide)).1,
   ((excluded_until_expiry (freshServer [] []) "A" [.wait 60000000000]
      (TwoQueue.WF_New (by decide))).2 (by decide) (by decide) (by decide)).1⟩

/-- C5: an endpoint is admitted at time `t1` and admitted again before `t1 + d`,
where `d` is the configured TTL; whatever else happens in between, once `t1 + d`
has passed and the endpoint has not been admitted a third time, it is not
excluded: the second admission does not prolong the exclusion.  The removal
scheduled by the second admission is then still pending or has run as well. -/
theorem readmission_does_not_extend (s : State) (u : String) (es₁ es₂ : List Event)
    (hwf : s.cache.WF)
    (h₁ : (duration es₁ : Int) < s.cfg.cacheTTL)
    (hno : ∀ e ∈ es₂, e ≠ .add u)
    (h₂ : s.cfg.cacheTTL ≤ ((duration es₁ + duration es₂ : Nat) : Int)) :
    excluded (run es₂ (step (run es₁ (step s (.add u))) (.add u))) u = false := by
  have hwf₁ : (step s (.add u)).cache.WF := step_WF hwf _
  have hmem : (s.now + s.cfg.cacheTTL, u) ∈ (step s (.add u)).timers :=
    List.mem_append_right _ (List.mem_singleton_self _)
  have hnow : (step s (.add u)).now = s.now := rfl
  obtain ⟨-, hnow₁, hwf₁'⟩ := run_frame es₁ (step s (.add u))
  have hp := pending_run (D := s.now + s.cfg.cacheTTL) es₁ hmem (by rw [hnow]; omega)
  have hwf₂ : (step (run es₁ (step s (.add u))) (.add u)).cache.WF :=
    step_WF (hwf₁' hwf₁) _
  have hnow₂ : (step (run es₁ (step s (.add u))) (.add u)).now
      = s.now + (duration es₁ : Nat) := by
    show (run es₁ (step s (.add u))).now = _
    rw [hnow₁, hnow]
  obtain ⟨-, hnow₃, -⟩ := run_frame es₂ (step (run es₁ (step s (.add u))) (.add u))
  have hinv := expired_run (D := s.now + s.cfg.cacheTTL) es₂ hwf₂
    (Or.inl ⟨by rw [hnow₂]; omega, List.mem_append_left _ hp⟩) hno
  rw [excluded_false_iff]
  rcases hinv with ⟨h, -⟩ | h
  · rw [hnow₃, hnow₂] at h
    push_cast at h₂
    omega
  · exact h

/-- C5, witness: `A` is admitted at time 0 and again at 30 s with a TTL of 60 s;
at 70 s it is not excluded. -/
theorem readmission_does_not_extend_witness :
    excluded (run [.wait 40000000000]
      (step (run [.wait 30000000000] (step (freshServer [] []) (.add "A"))) (.add "A")))
      "A" = false :=
  readmission_does_not_extend (freshServer [] []) "A" [.wait 30000000000] [.wait 40000000000]
    (TwoQueue.WF_New (by decide)) (by decide) (by decide) (by decide)

/-- C6, counterexample: when the shuffle yields the order `B`, `C`, `A`, the caller
gets 200 `ok` after `B` alone was attempted and failed: `A` is not excluded
afterwards. -/
theorem routeABC_counterexample :
    (shuffleURLs rndZero ["A", "B", "C"]).shuffled = ["B", "C", "A"] ∧
    (loadBalancer scenarioABC rndZero rndZero (freshServer ["A", "B", "C"] ["F"])).written
      = [⟨200, "ok"⟩] ∧
    excluded (loadBalancer scenarioABC rndZero rndZero (freshServer ["A", "B", "C"] ["F"]))
      "A" = false := by
  decide

/-- C6, amended: for the pool `A`, `B`, `C` on a freshly started server, where `A`
and `B` answer 429 and `C` answers 200 with body `ok`, for every traversal order
the caller gets status 200 and body `ok`, no alert is sent and `C` is not excluded
afterwards; `A` is excluded afterwards exactly when it comes before `C` in the
traversal order, and so is `B`. -/
theorem routeABC (rnd₁ rnd₂ : Rand) (fallback : List String) :
    (loadBalancer scenarioABC rnd₁ rnd₂ (freshServer ["A", "B", "C"] fallback)).written
      = [⟨200, "ok"⟩] ∧
    (loadBalancer scenarioABC rnd₁ rnd₂ (freshServer ["A", "B", "C"] fallback)).slack = [] ∧
    excluded (loadBalancer scenarioABC rnd₁ rnd₂ (freshServer ["A", "B", "C"] fallback))
      "C" = false ∧
    (excluded (loadBalancer scenarioABC rnd₁ rnd₂ (freshServer ["A", "B", "C"] fallback))
        "A" = true ↔
      (shuffleURLs rnd₁ ["A", "B", "C"]).shuffled.indexOf "A" <
        (shuffleURLs rnd₁ ["A", "B", "C"]).shuffled.indexOf "C") ∧
    (excluded (loadBalancer scenarioABC rnd₁ rnd₂ (freshServer ["A", "B", "C"] fallback))
        "B" = true ↔
      (shuffleURLs rnd₁ ["A", "B", "C"]).shuffled.indexOf "B" <
        (shuffleURLs rnd₁ ["A", "B", "C"]).shuffled.indexOf "C") := by
  have ho := scenarioABC_orders _ (shuffled_three rnd₁ "A" "B" "C")
  have hc : forwardLoop scenarioABC (shuffleURLs rnd₁ ["A", "B", "C"]).shuffled
      (freshServer ["A", "B", "C"] fallback) = _ :=
    forwardLoop_cfg scenarioABC (shuffleURLs rnd₁ ["A", "B", "C"]).shuffled
      (freshServer ["A", "B", "C"] []) (freshServer ["A", "B", "C"] fallback).cfg rfl
  have e : loadBalancer scenarioABC rnd₁ rnd₂ (freshServer ["A", "B", "C"] fallback)
      = (forwardLoop scenarioABC (shuffleURLs rnd₁ ["A", "B", "C"]).shuffled
          (freshServer ["A", "B", "C"] fallback)).2 := by
    rw [loadBalancer_eq, if_pos]
    · rfl
    · show (forwardLoop scenarioABC (shuffleURLs rnd₁ ["A", "B", "C"]).shuffled
        (freshServer ["A", "B", "C"] fallback)).1 = true
      rw [hc]
      exact ho.1
  rw [e, hc]
  exact ho.2

/-- C7, counterexample: eleven distinct endpoints, each listed twice, all
answering 429, traversed in pool order by a freshly started server whose cache
holds ten keys: the endpoint `e1` is attempted twice in one call. -/
theorem tryForwardRequests_once_counterexample :
    ((tryForwardRequests allRateLimited rndKeep (elevenEndpoints ++ elevenEndpoints)
      (freshServer (elevenEndpoints ++ elevenEndpoints) ["F"])).2.forwarded).count "e1" = 2 := by
  decide

/-- C7, amended: one call of `tryForwardRequests` started in a consistent cache
state that has room for the pool (keys held plus length of the pool at most the
capacity) makes at most one forward attempt to any given endpoint, also when the
pool lists the same endpoint more than once, whatever the endpoints answer.
Without that room it makes at most as many forward attempts to an endpoint as the
pool lists it, hence at most one to an endpoint listed once. -/
theorem tryForwardRequests_attempts_le (net : Network) (rnd : Rand) (urls : List String)
    (s : State) :
    ∃ a, (tryForwardRequests net rnd urls s).2.forwarded = s.forwarded ++ a ∧
      (s.cache.WF → s.cache.Len + urls.length ≤ s.cache.size →
        a.Nodup ∧ ∀ u, a.count u ≤ 1) ∧
      (∀ u, a.count u ≤ urls.count u) ∧ (urls.Nodup → a.Nodup) := by
  obtain ⟨a, h, hc⟩ := tryForwardRequests_attempts net rnd urls s
  refine ⟨a, h, fun hwf hroom => ?_, hc, fun hn => ?_⟩
  · have hlen : (shuffleURLs rnd urls).shuffled.length = urls.length :=
      (shuffled_perm rnd urls).length_eq
    obtain ⟨a', h', hnd, -⟩ := forwardLoop_room net (shuffleURLs rnd urls).shuffled s hwf
      (by rw [hlen]; exact hroom)
    have e : a' = a := List.append_cancel_left (h'.symm.trans h)
    subst e
    exact ⟨hnd, fun u => List.nodup_iff_count_le_one.mp hnd u⟩
  · rw [List.nodup_iff_count_le_one] at hn ⊢
    exact fun u => (hc u).trans (hn u)

/-- C7, witness: the pool lists `A` three times and `B` twice, every endpoint
answers 429, the server is freshly started: no endpoint is attempted twice. -/
theorem tryForwardRequests_attempts_le_witness :
    (tryForwardRequests allRateLimited rndKeep ["A", "B", "A", "B", "A"]
      (freshServer ["A", "B", "A", "B", "A"] ["F"])).2.forwarded.Nodup := by
  obtain ⟨a, h, hn, -⟩ := tryForwardRequests_attempts_le allRateLimited rndKeep
    ["A", "B", "A", "B", "A"] (freshServer ["A", "B", "A", "B", "A"] ["F"])
  rw [h]
  exact (hn (TwoQueue.WF_New (by decide)) (by decide)).1

/-- C8: for every pool and every outcome of the random source, the slice returned
by `shuffleURLs` is a permutation of the pool (same length, every endpoint as often
as in the pool), and the slice of the caller is the same after the call. -/
theorem shuffleURLs_permutation (rnd : Rand) (urls : List String) :
    (shuffleURLs rnd urls).shuffled.Perm urls ∧
    (shuffleURLs rnd urls).shuffled.length = urls.length ∧
    (∀ u, (shuffleURLs rnd urls).shuffled.count u = urls.count u) ∧
    (shuffleURLs rnd urls).urls = urls := by
  have hp := shuffled_perm rnd urls
  refine ⟨hp, hp.length_eq, fun u => hp.count_eq u, ?_⟩
  unfold shuffleURLs randShuffle
  cases urls with
  | nil => rfl
  | cons a t => exact (randShuffleFrom_swap rnd _ ⟨a :: t, a :: t⟩ (by simp)).1

/-- C9, counterexample: every required value but the listen port is set; start-up
does not fail, the server listens on port 8080. -/
theorem startup_counterexample :
    envWithoutPort.environ.lookup "PORT" = none ∧
    (startup envWithoutPort).toOption.map (fun s => s.cfg.port) = some "8080" := by
  decide

/-- C9, amended: start-up ends in a fatal error whenever the file `.env` cannot be
loaded outside production, the exclusion TTL is absent or not an integer, or the
alert sink address is absent.  An absent listen port is no error: whenever
start-up succeeds the port is set, and it is 8080 when none was given. -/
theorem startup_fatal (os : OS) :
    (loadEnv os = none → ∃ msg, startup os = .error msg) ∧
    (∀ environ, loadEnv os = some environ →
      (Getenv environ "ERROR_TIME_TO_LIVE_MINUTES" = "" ∨
        Atoi (Getenv environ "ERROR_TIME_TO_LIVE_MINUTES") = none ∨
        Getenv environ "SLACK_WEBHOOK_URL" = "") →
      ∃ msg, startup os = .error msg) ∧
    (∀ s, startup os = .ok s →
      s.cfg.port ≠ "" ∧
      ∀ environ, loadEnv os = some environ → Getenv environ "PORT" = "" →
        s.cfg.port = "8080") := by
  refine ⟨fun h => ?_, fun environ h hbad => ?_, fun s hs => ?_⟩
  · exact ⟨"Error loading .env file", by simp [startup, init, h, Except.map]⟩
  · have hbad' : Atoi (Getenv environ "ERROR_TIME_TO_LIVE_MINUTES") = none ∨
        Getenv environ "SLACK_WEBHOOK_URL" = "" := by
      rcases hbad with h1 | h1 | h1
      · left; rw [h1]; rfl
      · exact Or.inl h1
      · exact Or.inr h1
    rcases hbad' with h1 | h1
    · exact ⟨"Invalid duration for ERROR_TIME_TO_LIVE_MINUTES",
        by simp [startup, init, h, h1, Except.map]⟩
    · cases h2 : Atoi (Getenv environ "ERROR_TIME_TO_LIVE_MINUTES") with
      | none => exact ⟨"Invalid duration for ERROR_TIME_TO_LIVE_MINUTES",
          by simp [startup, init, h, h2, Except.map]⟩
      | some d =>
        simp only [startup, init, h, h2, h1]
        split_ifs <;> exact ⟨_, rfl⟩
  · unfold startup at hs
    cases hi : init os with
    | error e => rw [hi] at hs; simp [Except.map] at hs
    | ok cfg =>
      rw [hi] at hs
      have e : s = main cfg := by
        simp only [Except.map] at hs
        exact (Except.ok.inj hs).symm
      subst e
      refine ⟨?_, fun environ henv hport => ?_⟩
      · show (if cfg.port = "" then "8080" else cfg.port) ≠ ""
        split_ifs with hp
        · decide
        · exact hp
      · have hcp : cfg.port = "" := by
          revert hi
          simp only [init, henv]
          split
          · intro hi; cases hi
          · split_ifs
            · intro hi; cases hi
            · intro hi; cases hi
            · intro hi; cases hi
            · intro hi
              have := Except.ok.inj hi
              rw [← this]
              exact hport
        show (if cfg.port = "" then "8080" else cfg.port) = "8080"
        rw [if_pos hcp]

/-- C9, witness: without the alert sink address start-up fails, and with every
value but the port it succeeds on port 8080. -/
theorem startup_fatal_witness :
    (∃ msg, startup { environ := [("ENV", "production"),
        ("ERROR_TIME_TO_LIVE_MINUTES", "1")], dotenv := none } = .error msg) ∧
    ∀ s, startup envWithoutPort = .ok s → s.cfg.port = "8080" :=
  ⟨(startup_fatal _).2.1 _ rfl (Or.inr (Or.inr rfl)),
   fun s hs => ((startup_fatal envWithoutPort).2.2 s hs).2 _ rfl rfl⟩

/-- C10, amended: for every traversal order and every cache state, a call of
`tryForwardRequests` that returns `true` stops at a position `i` of the order whose
candidate `c` is not excluded when the traversal reaches it and answers with a
status other than 429; every candidate before it was excluded when reached, or was
attempted and failed; the attempt to `c` is the last one; the reply relayed from
it is written (status 500 when its body cannot be read).  Every candidate before
`c` that was attempted has been admitted: right after its attempt it is stored in
the cache by `cache.Set` and its removal is scheduled with the configured TTL, so
that in a consistent cache it is excluded at the next position, and, when the
cache has room for the pool, still excluded when the call returns.  No removal is
scheduled for `c`, which is not excluded afterwards.  A call that returns `false`
found every candidate excluded or failing and admitted, in the same way, every
candidate it attempted. -/
theorem tryForwardRequests_first_usable (net : Network) (rnd : Rand) (urls : List String)
    (s : State) :
    ((tryForwardRequests net rnd urls s).1 = true →
      ∃ i c a, (shuffleURLs rnd urls).shuffled[i]? = some c ∧
        (∀ j, j ≤ i → (reach net (shuffleURLs rnd urls).shuffled s j).1 = false) ∧
        (∀ j u, j < i → (shuffleURLs rnd urls).shuffled[j]? = some u →
          excluded (reach net (shuffleURLs rnd urls).shuffled s j).2 u = true ∨
          (net (reach net (shuffleURLs rnd urls).shuffled s j).2.forwarded u).usable = false) ∧
        (∀ j u, j < i → (shuffleURLs rnd urls).shuffled[j]? = some u →
          excluded (reach net (shuffleURLs rnd urls).shuffled s j).2 u = false →
          (reach net (shuffleURLs rnd urls).shuffled s (j + 1)).2.cache
            = (reach net (shuffleURLs rnd urls).shuffled s j).2.cache.Set u ∧
          (reach net (shuffleURLs rnd urls).shuffled s (j + 1)).2.timers
            = (reach net (shuffleURLs rnd urls).shuffled s j).2.timers ++
                [(s.now + s.cfg.cacheTTL, u)] ∧
          (s.cache.WF →
            excluded (reach net (shuffleURLs rnd urls).shuffled s (j + 1)).2 u = true)) ∧
        excluded (reach net (shuffleURLs rnd urls).shuffled s i).2 c = false ∧
        (reach net (shuffleURLs rnd urls).shuffled s i).2.forwarded = s.forwarded ++ a ∧
        (net (s.forwarded ++ a) c).usable = true ∧
        (tryForwardRequests net rnd urls s).2.forwarded = (s.forwarded ++ a) ++ [c] ∧
        (tryForwardRequests net rnd urls s).2.written
          = s.written ++ [(net (s.forwarded ++ a) c).relayed] ∧
        (tryForwardRequests net rnd urls s).2.timers
          = s.timers ++ a.map (fun u => (s.now + s.cfg.cacheTTL, u)) ∧
        (s.cache.WF → s.cache.Len + urls.length ≤ s.cache.size →
          ∀ x ∈ a, excluded (tryForwardRequests net rnd urls s).2 x = true) ∧
        excluded (tryForwardRequests net rnd urls s).2 c = false) ∧
    ((tryForwardRequests net rnd urls s).1 = false →
      ∃ a, (tryForwardRequests net rnd urls s).2.forwarded = s.forwarded ++ a ∧
        (tryForwardRequests net rnd urls s).2.timers
          = s.timers ++ a.map (fun u => (s.now + s.cfg.cacheTTL, u)) ∧
        (tryForwardRequests net rnd urls s).2.written = s.written ∧
        (s.cache.WF → s.cache.Len + urls.length ≤ s.cache.size →
          ∀ x ∈ a, excluded (tryForwardRequests net rnd urls s).2 x = true) ∧
        (∀ j u, (shuffleURLs rnd urls).shuffled[j]? = some u →
          (reach net (shuffleURLs rnd urls).shuffled s j).1 = false ∧
          (excluded (reach net (shuffleURLs rnd urls).shuffled s j).2 u = true ∨
            (net (reach net (shuffleURLs rnd urls).shuffled s j).2.forwarded u).usable
              = false)) ∧
        (∀ j u, (shuffleURLs rnd urls).shuffled[j]? = some u →
          excluded (reach net (shuffleURLs rnd urls).shuffled s j).2 u = false →
          (reach net (shuffleURLs rnd urls).shuffled s (j + 1)).2.cache
            = (reach net (shuffleURLs rnd urls).shuffled s j).2.cache.Set u ∧
          (reach net (shuffleURLs rnd urls).shuffled s (j + 1)).2.timers
            = (reach net (shuffleURLs rnd urls).shuffled s j).2.timers ++
                [(s.now + s.cfg.cacheTTL, u)] ∧
          (s.cache.WF →
            excluded (reach net (shuffleURLs rnd urls).shuffled s (j + 1)).2 u = true))) := by
  have e : tryForwardRequests net rnd urls s
      = forwardLoop net (shuffleURLs rnd urls).shuffled s := rfl
  have hlen : (shuffleURLs rnd urls).shuffled.length = urls.length :=
    (shuffled_perm rnd urls).length_eq
  rw [e]
  generalize (shuffleURLs rnd urls).shuffled = order at hlen ⊢
  obtain ⟨hpos, hneg⟩ := forwardLoop_positions net order s
  obtain ⟨a₀, hf₀, ht₀⟩ := forwardLoop_timers net order s
  -- what an attempt that fails does, at any position the traversal reaches
  have hadm : ∀ j u, order[j]? = some u → (reach net order s j).1 = false →
      (excluded (reach net order s j).2 u = true ∨
        (net (reach net order s j).2.forwarded u).usable = false) →
      excluded (reach net order s j).2 u = false →
      (reach net order s (j + 1)).2.cache = (reach net order s j).2.cache.Set u ∧
      (reach net order s (j + 1)).2.timers
        = (reach net order s j).2.timers ++ [(s.now + s.cfg.cacheTTL, u)] ∧
      (s.cache.WF → excluded (reach net order s (j + 1)).2 u = true) := by
    intro j u hu hr hd hx
    have hfail : (net (reach net order s j).2.forwarded u).usable = false := by
      rcases hd with hd | hd
      · rw [hx] at hd; cases hd
      · exact hd
    have hnow : (reach net order s j).2.now = s.now := (forwardLoop_frame net _ s).2.1
    have hs := reach_succ_failed net order s j u hu hr hx hfail
    rw [hs]
    refine ⟨rfl, ?_, fun hwf => ?_⟩
    · simp [addToCacheWithTTL, forwardRequest, hnow]
    · rw [excluded_iff]
      exact TwoQueue.holds_Set_self (forwardLoop_WF net _ s hwf) u
  refine ⟨fun ht => ?_, fun hf => ?_⟩
  · obtain ⟨i, c, hc, p1, p2, p3, p4, p5⟩ := hpos ht
    obtain ⟨-, -, -, ⟨a, hfa, -⟩, hw⟩ := forwardLoop_frame net (order.take i) s
    have hfa' : (reach net order s i).2.forwarded = s.forwarded ++ a := hfa
    have hw' : (reach net order s i).2.written = s.written := (hw (p1 i le_rfl)).1
    have e₀ : a₀ = a ++ [c] := by
      have h := hf₀
      rw [p5] at h
      simp only [relayState, forwardRequest, hfa', List.append_assoc] at h
      exact (List.append_cancel_left h).symm
    refine ⟨i, c, a, hc, p1, p2, fun j u hj hu hx => hadm j u hu (p1 j (le_of_lt hj))
      (p2 j u hj hu) hx, p3, hfa', ?_, ?_, ?_, ?_, ?_, ?_⟩
    · rw [← hfa']; exact p4
    · rw [hf₀, e₀, List.append_assoc]
    · rw [p5, ← hfa']
      simp [relayState, forwardRequest, hw']
    · rw [ht₀, if_pos ht, e₀]
      simp
    · intro hwf hroom x hx
      obtain ⟨a₁, h₁, -, hheld⟩ := forwardLoop_room net (order.take i) s hwf (by
        have := List.length_take i order
        omega)
      have ea : a₁ = a := List.append_cancel_left (h₁.symm.trans hfa)
      subst ea
      have hfalse : (forwardLoop net (order.take i) s).1 = false := p1 i le_rfl
      rw [if_neg (by simp [hfalse])] at hheld
      rw [p5, excluded_iff]
      exact hheld x hx
    · rw [p5]
      exact p3
  · refine ⟨a₀, hf₀, ?_, ((forwardLoop_frame net order s).2.2.2.2 hf).1, ?_, fun j u hu =>
      hneg hf j u hu, fun j u hu hx => hadm j u hu (hneg hf j u hu).1 (hneg hf j u hu).2 hx⟩
    · rw [ht₀, if_neg (by simp [hf])]
    · intro hwf hroom x hx
      obtain ⟨a₁, h₁, -, hheld⟩ := forwardLoop_room net order s hwf (by omega)
      have ea : a₁ = a₀ := List.append_cancel_left (h₁.symm.trans hf₀)
      subst ea
      rw [if_neg (by simp [hf])] at hheld
      rw [excluded_iff]
      exact hheld x hx

/-- C10, witness: pool `A`, `B`, `C` traversed in that order on a freshly started
server, where only `C` answers with a status other than 429: the call returns
`true`, and `A` and `B`, attempted before `C`, are excluded when it returns. -/
theorem tryForwardRequests_first_usable_witness :
    (tryForwardRequests scenarioABC rndKeep ["A", "B", "C"]
      (freshServer ["A", "B", "C"] ["F"])).2.forwarded = ["A", "B", "C"] ∧
    ∀ x ∈ ["A", "B"], excluded (tryForwardRequests scenarioABC rndKeep ["A", "B", "C"]
      (freshServer ["A", "B", "C"] ["F"])).2 x = true := by
  obtain ⟨i, c, a, -, -, -, -, -, -, -, h1, -, -, h2, -⟩ :=
    (tryForwardRequests_first_usable scenarioABC rndKeep ["A", "B", "C"]
      (freshServer ["A", "B", "C"] ["F"])).1 (by decide)
  have h3 : (tryForwardRequests scenarioABC rndKeep ["A", "B", "C"]
      (freshServer ["A", "B", "C"] ["F"])).2.forwarded = ["A", "B", "C"] := by decide
  have h4 : a = ["A", "B"] ∧ c = "C" := by
    rw [h3] at h1
    have h5 : ["A", "B", "C"] = a ++ [c] := by simpa using h1
    have h6 : (["A", "B"] : List String) ++ ["C"] = a ++ [c] := h5
    have h7 := List.append_inj' h6 rfl
    exact ⟨h7.1.symm, (List.singleton_inj.mp h7.2).symm⟩
  exact ⟨h3, fun x hx => h2 (TwoQueue.WF_New (by decide)) (by decide) x (h4.1 ▸ hx)⟩

/-- C10, counterexample: the only candidate `A` is not excluded and answers 200,
a status other than 429, but its body cannot be read: what the call writes is not
the response of `A` but status 500. -/
theorem tryForwardRequests_first_usable_counterexample :
    (shuffleURLs rndKeep ["A"]).shuffled = ["A"] ∧
    excluded (freshServer ["A"] ["F"]) "A" = false ∧
    allUnreadable [] "A" = .response 200 none ∧
    (tryForwardRequests allUnreadable rndKeep ["A"] (freshServer ["A"] ["F"])).2.written
      = [⟨500, "Failed to read response body\n"⟩] := by
  decide

/-- What start-up does when neither pool variable is set (`strings.Split` of the
empty string is a list holding the empty string, so the length checks of `init`
pass): both pools consist of the empty endpoint. -/
theorem startup_absent_pools :
    (startup envWithoutPools).toOption.map (fun s => (s.cfg.RPCs, s.cfg.FallbackRPC))
      = some ([""], [""]) := by
  decide

end LoadBalancer
